/-
Verification of the Sentinal file-reorganizer core against its specification.

The Rust sources are shallowly embedded: each embedded definition mirrors one
source item (module paths given in the doc comments).  Filesystem paths are
modelled as `PathBuf` below; machine integers are modelled as `Nat`/`Int`
(no arithmetic in the verified code overflows); fallible Rust functions
return `Except`.
-/

import Mathlib

set_option maxHeartbeats 1600000

/-- Model of `std::path::PathBuf`: an absoluteness flag plus the list of
normal components.  `PathBuf::from "/a/b"` is `⟨true, ["a", "b"]⟩`;
`PathBuf::from "C:\\Windows"` read on a Unix host is the single relative
component `⟨false, ["C:\\Windows"]⟩`. -/
structure PathBuf where
  absolute : Bool
  components : List String
deriving DecidableEq, Repr

namespace PathBuf

/-- Model of `Path::starts_with`: component-wise prefix test.  An absolute
path is never prefixed by a non-empty relative path (the root component
mismatches), and the empty relative path prefixes everything. -/
def startsWith (p q : PathBuf) : Bool :=
  if q.absolute then p.absolute && q.components.isPrefixOf p.components
  else if q.components.isEmpty then true
  else !p.absolute && q.components.isPrefixOf p.components

/-- Model of `Path::parent`: drops the last component; `None` when there is
no component left (the root path or the empty path). -/
def parent (p : PathBuf) : Option PathBuf :=
  match p.components with
  | [] => none
  | _ :: _ => some ⟨p.absolute, p.components.dropLast⟩

/-- Model of `Path::join` with a single normal component (every `new_name`
joined by the embedded code is separator-free, per the spec invariant). -/
def join (p : PathBuf) (name : String) : PathBuf :=
  ⟨p.absolute, p.components ++ [name]⟩

/-- Model of `Path::display`: renders the path back to a string. -/
def display (p : PathBuf) : String :=
  (if p.absolute then "/" else "") ++ String.intercalate "/" p.components

theorem startsWith_refl (p : PathBuf) : startsWith p p = true := by
  unfold startsWith
  cases hq : p.absolute <;> cases hc : p.components <;>
    simp [hq, hc, List.isPrefixOf_iff_prefix]

end PathBuf

namespace Security

/-- Model of the `protected_paths` list in
`security/mod.rs::PathValidator::is_protected_path` (the Windows entries are
relative single-component paths when parsed on a Unix host). -/
def protectedPaths : List PathBuf :=
  [⟨true, []⟩,
   ⟨true, ["System"]⟩,
   ⟨true, ["usr"]⟩,
   ⟨true, ["bin"]⟩,
   ⟨true, ["sbin"]⟩,
   ⟨true, ["Library"]⟩,
   ⟨true, ["Applications"]⟩,
   ⟨true, ["private"]⟩,
   ⟨true, ["var"]⟩,
   ⟨false, ["C:\\Windows"]⟩,
   ⟨false, ["C:\\Program Files"]⟩,
   ⟨false, ["C:\\Program Files (x86)"]⟩]

/-- Whether `dirs::home_dir()` is set and `check_path.starts_with(&home)`
holds: the `if let Some(home) = dirs::home_dir() { if
check_path.starts_with(&home) { return false; } }` condition of
`is_protected_path`, factored out. -/
def underHome (home : Option PathBuf) (p : PathBuf) : Bool :=
  match home with
  | some h => p.startsWith h
  | none => false

/-- Embedding of the `for protected in &protected_paths` loop of
`is_protected_path`; `some b` models an early `return b`, `none` models
falling through the loop.  `home` models `dirs::home_dir()`. -/
def protectedLoop (home : Option PathBuf) (checkPath : PathBuf) :
    List PathBuf → Option Bool
  | [] => none
  | q :: rest =>
    if checkPath = q then some true
    else if checkPath.startsWith q then
      if underHome home checkPath then some false
      else if checkPath.parent = some q then some true
      else protectedLoop home checkPath rest
    else protectedLoop home checkPath rest

/-- Embedding of `security/mod.rs::PathValidator::is_protected_path`.
`path.canonicalize().unwrap_or_else(|_| path.to_path_buf())` is modelled as
the identity (the fallback branch; the embedding treats paths as already
canonical).  After the loop the source blocks the home directory itself. -/
def is_protected_path (home : Option PathBuf) (path : PathBuf) : Bool :=
  match protectedLoop home path protectedPaths with
  | some b => b
  | none =>
    match home with
    | some h => path = h
    | none => false

/-- Specification predicate for the amended claim C6: `p` is a direct child
of one of the Unix protected directories (the filesystem root, or one of the
single-component system directories). -/
def directChildOfProtected (p : PathBuf) : Bool :=
  match p.components with
  | [_] => true
  | [a, _] =>
    a ∈ (["System", "usr", "bin", "sbin", "Library", "Applications",
          "private", "var"] : List String)
  | _ => false

end Security

namespace Vfs

/-- Node type of a VFS node.  Modelled from the spec: `vfs/node.rs` is
declared by `vfs/mod.rs` but absent from the source tree; `graph.rs` matches
on files and directories (spec §3: a symlink is never treated as its
target). -/
inductive VFSNodeType where
  | File
  | Directory
  | Symlink
deriving DecidableEq, Repr

/-- Modelled from the spec: `FileNode` (`vfs/node.rs`, absent from the
source tree) is the spec's VFSNode — a captured filesystem entry plus a
parent path and, for directories, the set of child paths.  Only the fields
and constructors that `graph.rs` uses are carried. -/
structure FileNode where
  path : PathBuf
  name : String
  node_type : VFSNodeType
  size : Nat
  parent : Option PathBuf
  children : List PathBuf
  content_preview : Option String
deriving DecidableEq, Repr

/-- Modelled from the spec: `FileNode::directory(path)` builds a directory
node with no parent, no children and zero size. -/
def FileNode.directory (p : PathBuf) : FileNode :=
  { path := p
    name := (p.components.getLast? ).getD ""
    node_type := VFSNodeType.Directory
    size := 0
    parent := none
    children := []
    content_preview := none }

/-- Modelled from the spec: `FileNode::file(path)` builds a file node. -/
def FileNode.file (p : PathBuf) : FileNode :=
  { FileNode.directory p with node_type := VFSNodeType.File }

/-- Model of `FileNode::is_file`. -/
def FileNode.is_file (n : FileNode) : Bool :=
  n.node_type = VFSNodeType.File

/-- Model of `FileNode::is_directory`. -/
def FileNode.is_directory (n : FileNode) : Bool :=
  n.node_type = VFSNodeType.Directory

/-- Modelled from the spec: `FileNode::add_child` records a child path (a
set insertion: children are unordered, membership is the only invariant). -/
def FileNode.add_child (n : FileNode) (c : PathBuf) : FileNode :=
  if c ∈ n.children then n else { n with children := n.children ++ [c] }

/-- Embedding of `vfs/graph.rs::VFSError`.  The `String` payloads carry the
`path.display()` renderings exactly as the source formats them. -/
inductive VFSError where
  | PathNotFound (path : String)
  | PathCollision (source_path : String) (target : String)
  | CycleDetected (source_path : String) (target_path : String)
  | InvalidOperation (msg : String)
  | ParentNotFound (path : String)
  | CannotModifyRoot (msg : String)
deriving DecidableEq, Repr

/-- Association-list model of `HashMap<PathBuf, FileNode>`: lookup. -/
def lookupNode (nodes : List (PathBuf × FileNode)) (p : PathBuf) :
    Option FileNode :=
  (nodes.find? (fun e => e.1 = p)).map (·.2)

/-- Association-list model of `HashMap::contains_key`. -/
def containsKey (nodes : List (PathBuf × FileNode)) (p : PathBuf) : Bool :=
  (lookupNode nodes p).isSome

/-- Association-list model of `HashMap::insert` (replace or append). -/
def insertNode (nodes : List (PathBuf × FileNode)) (p : PathBuf)
    (n : FileNode) : List (PathBuf × FileNode) :=
  if containsKey nodes p then
    nodes.map (fun e => if e.1 = p then (p, n) else e)
  else nodes ++ [(p, n)]

/-- List model of `HashSet::insert` (no duplicate is added). -/
def insertSet (s : List PathBuf) (p : PathBuf) : List PathBuf :=
  if p ∈ s then s else s ++ [p]

/-- Association-list model of `HashMap<PathBuf, PathBuf>::insert` used for
`staged_moves` (a re-staged source replaces its previous destination). -/
def insertMove (moves : List (PathBuf × PathBuf)) (src dest : PathBuf) :
    List (PathBuf × PathBuf) :=
  if moves.any (fun e => e.1 = src) then
    moves.map (fun e => if e.1 = src then (src, dest) else e)
  else moves ++ [(src, dest)]

/-- Embedding of `vfs/graph.rs::ShadowVFS`.  The hash containers are
modelled as lists; iteration order, which `HashMap` leaves unspecified, is
modelled as list order. -/
structure ShadowVFS where
  nodes : List (PathBuf × FileNode)
  root : PathBuf
  staged_creates : List PathBuf
  staged_deletes : List PathBuf
  staged_moves : List (PathBuf × PathBuf)
  last_scan : Option Int
  total_size_bytes : Nat
deriving DecidableEq, Repr

namespace ShadowVFS

/-- Embedding of `ShadowVFS::new`: a VFS holding only the root node. -/
def new (root : PathBuf) : ShadowVFS :=
  { nodes := [(root, FileNode.directory root)]
    root := root
    staged_creates := []
    staged_deletes := []
    staged_moves := []
    last_scan := none
    total_size_bytes := 0 }

/-- Embedding of `ShadowVFS::get`: a node staged for deletion is hidden. -/
def get (vfs : ShadowVFS) (path : PathBuf) : Option FileNode :=
  if path ∈ vfs.staged_deletes then none
  else lookupNode vfs.nodes path

/-- Embedding of `ShadowVFS::insert`. -/
def insert (vfs : ShadowVFS) (node : FileNode) : ShadowVFS :=
  { vfs with
    total_size_bytes :=
      if node.is_file then vfs.total_size_bytes + node.size
      else vfs.total_size_bytes
    nodes := insertNode vfs.nodes node.path node }

/-- Embedding of `ShadowVFS::list_dir`: the children of a directory node,
skipping staged deletes. -/
def list_dir (vfs : ShadowVFS) (path : PathBuf) :
    Except VFSError (List FileNode) :=
  match vfs.get path with
  | none => Except.error (VFSError.PathNotFound path.display)
  | some node =>
    if node.is_directory = false then
      Except.error (VFSError.InvalidOperation
        (path.display ++ " is not a directory"))
    else
      Except.ok (node.children.filterMap (fun childPath =>
        if childPath ∈ vfs.staged_deletes then none
        else lookupNode vfs.nodes childPath))

/-- Embedding of `ShadowVFS::stage_move`.  The checks run in source order:
source existence, destination collision, cycle, destination parent, root
immutability; only then is the move recorded. -/
def stage_move (vfs : ShadowVFS) (src dest : PathBuf) :
    Except VFSError Unit × ShadowVFS :=
  if !containsKey vfs.nodes src || src ∈ vfs.staged_deletes then
    (Except.error (VFSError.PathNotFound src.display), vfs)
  else if containsKey vfs.nodes dest && dest ∉ vfs.staged_deletes then
    (Except.error (VFSError.PathCollision src.display dest.display), vfs)
  else if dest.startsWith src && dest ≠ src then
    (Except.error (VFSError.CycleDetected src.display dest.display), vfs)
  else if (match dest.parent with
      | some destParent =>
        destParent ≠ vfs.root &&
        (!containsKey vfs.nodes destParent ||
          destParent ∈ vfs.staged_deletes) &&
        destParent ∉ vfs.staged_creates
      | none => false) then
    (Except.error (VFSError.ParentNotFound
      (((dest.parent).getD dest).display)), vfs)
  else if src = vfs.root then
    (Except.error (VFSError.CannotModifyRoot
      "Cannot move root directory"), vfs)
  else
    (Except.ok (), { vfs with staged_moves := insertMove vfs.staged_moves src dest })

/-- Embedding of `ShadowVFS::stage_create_folder`. -/
def stage_create_folder (vfs : ShadowVFS) (path : PathBuf) :
    Except VFSError Unit × ShadowVFS :=
  if containsKey vfs.nodes path && path ∉ vfs.staged_deletes then
    (Except.error (VFSError.PathCollision path.display path.display), vfs)
  else if (match path.parent with
      | some parentPath =>
        (!containsKey vfs.nodes parentPath ||
          parentPath ∈ vfs.staged_deletes) &&
        parentPath ∉ vfs.staged_creates
      | none => false) then
    (Except.error (VFSError.ParentNotFound
      (((path.parent).getD path).display)), vfs)
  else
    (Except.ok (), { vfs with staged_creates := insertSet vfs.staged_creates path })

/-- Embedding of `ShadowVFS::stage_delete`. -/
def stage_delete (vfs : ShadowVFS) (path : PathBuf) :
    Except VFSError Unit × ShadowVFS :=
  if !containsKey vfs.nodes path then
    (Except.error (VFSError.PathNotFound path.display), vfs)
  else if path = vfs.root then
    (Except.error (VFSError.CannotModifyRoot
      "Cannot delete root directory"), vfs)
  else
    (Except.ok (), { vfs with staged_deletes := insertSet vfs.staged_deletes path })

/-- Embedding of the staged-move loop of `ShadowVFS::validate_staged`; the
accumulator pair is the `destinations` set and the `errors` list. -/
def validateMoves (nodes : List (PathBuf × FileNode)) :
    List (PathBuf × PathBuf) → List PathBuf → List VFSError →
    List PathBuf × List VFSError
  | [], dests, errs => (dests, errs)
  | (src, dest) :: rest, dests, errs =>
    if !containsKey nodes src then
      validateMoves nodes rest dests
        (errs ++ [VFSError.PathNotFound src.display])
    else
      validateMoves nodes rest (insertSet dests dest)
        (if dest ∈ dests then
          errs ++ [VFSError.PathCollision src.display dest.display]
        else errs)

/-- Embedding of `ShadowVFS::validate_staged`. -/
def validate_staged (vfs : ShadowVFS) : Except (List VFSError) Unit :=
  let moveRes := validateMoves vfs.nodes vfs.staged_moves [] []
  let errs1 := moveRes.2
  let dests := moveRes.1
  let errs2 := errs1 ++ (vfs.staged_creates.filterMap (fun path =>
    if path ∈ dests then
      some (VFSError.PathCollision path.display path.display)
    else none))
  let errs3 := errs2 ++ (vfs.staged_deletes.filterMap (fun path =>
    if !containsKey vfs.nodes path then
      some (VFSError.PathNotFound path.display)
    else none))
  if errs3.isEmpty then Except.ok () else Except.error errs3

/-- Embedding of `ShadowVFS::clear_staged`. -/
def clear_staged (vfs : ShadowVFS) : ShadowVFS :=
  { vfs with staged_creates := [], staged_deletes := [], staged_moves := [] }

/-- Embedding of `ShadowVFS::get_by_type`, skipping staged deletes. -/
def get_by_type (vfs : ShadowVFS) (t : VFSNodeType) : List FileNode :=
  vfs.nodes.filterMap (fun e =>
    if e.1 ∉ vfs.staged_deletes && e.2.node_type = t then some e.2 else none)

/-- Embedding of `ShadowVFS::files`. -/
def files (vfs : ShadowVFS) : List FileNode :=
  vfs.get_by_type VFSNodeType.File

/-- Embedding of `ShadowVFS::directories`. -/
def directories (vfs : ShadowVFS) : List FileNode :=
  vfs.get_by_type VFSNodeType.Directory

/-- Embedding of `ShadowVFS::exists`. -/
def existsPath (vfs : ShadowVFS) (path : PathBuf) : Bool :=
  containsKey vfs.nodes path && path ∉ vfs.staged_deletes

/-- Embedding of `ShadowVFS::has_staged_operations`. -/
def has_staged_operations (vfs : ShadowVFS) : Bool :=
  !vfs.staged_creates.isEmpty || !vfs.staged_deletes.isEmpty ||
    !vfs.staged_moves.isEmpty

end ShadowVFS

/-- One staged request, used to quantify over arbitrary sequences of the
three staging entry points (claim C10). -/
inductive StageOp where
  | move (src dest : PathBuf)
  | createFolder (path : PathBuf)
  | delete (path : PathBuf)
deriving DecidableEq, Repr

/-- Runs one staging call, keeping the state the call returns (the result
value is discarded: on error the source leaves the VFS untouched). -/
def applyStageOp (vfs : ShadowVFS) : StageOp → ShadowVFS
  | StageOp.move src dest => (vfs.stage_move src dest).2
  | StageOp.createFolder path => (vfs.stage_create_folder path).2
  | StageOp.delete path => (vfs.stage_delete path).2

/-- Runs a sequence of staging calls left to right. -/
def applyStageOps (vfs : ShadowVFS) (ops : List StageOp) : ShadowVFS :=
  ops.foldl applyStageOp vfs

end Vfs

namespace Vfs

/-- Discriminator: the staging result is a `CycleDetected` error. -/
def isCycleErr : Except VFSError Unit → Bool
  | Except.error (VFSError.CycleDetected _ _) => true
  | _ => false

theorem insertSet_mem_of_mem {s : List PathBuf} {p q : PathBuf}
    (h : p ∈ s) : p ∈ insertSet s q := by
  unfold insertSet
  split
  · exact h
  · exact List.mem_append_left _ h

theorem insertSet_self_mem (s : List PathBuf) (p : PathBuf) :
    p ∈ insertSet s p := by
  unfold insertSet
  split
  · assumption
  · exact List.mem_append_right _ (List.mem_singleton.mpr rfl)

theorem insertMove_self_mem (moves : List (PathBuf × PathBuf))
    (src dest : PathBuf) : (src, dest) ∈ insertMove moves src dest := by
  unfold insertMove
  split
  · rename_i h
    rw [List.any_eq_true] at h
    obtain ⟨e, he, hk⟩ := h
    rw [List.mem_map]
    refine ⟨e, he, ?_⟩
    simp only [decide_eq_true_eq] at hk
    simp [hk]
  · exact List.mem_append_right _ (List.mem_singleton.mpr rfl)

theorem insertMove_mem_of_mem {moves : List (PathBuf × PathBuf)}
    {a b : PathBuf} (src dest : PathBuf) (h : (a, b) ∈ moves)
    (hne : a ≠ src) : (a, b) ∈ insertMove moves src dest := by
  unfold insertMove
  split
  · rw [List.mem_map]
    refine ⟨(a, b), h, ?_⟩
    simp [hne]
  · exact List.mem_append_left _ h

/-- Inversion of a successful `stage_move`: the source is a live node and
the only state change is the recorded move. -/
theorem stage_move_ok_inv {vfs v' : ShadowVFS} {src dest : PathBuf}
    (h : vfs.stage_move src dest = (Except.ok (), v')) :
    containsKey vfs.nodes src = true ∧
    v' = { vfs with staged_moves := insertMove vfs.staged_moves src dest } := by
  unfold ShadowVFS.stage_move at h
  split_ifs at h with h1 h2 h3 h4 h5 <;>
    simp only [Prod.mk.injEq] at h
  · exact absurd h.1 (by simp)
  · exact absurd h.1 (by simp)
  · exact absurd h.1 (by simp)
  · exact absurd h.1 (by simp)
  · exact absurd h.1 (by simp)
  · refine ⟨?_, h.2.symm⟩
    simp only [Bool.or_eq_true, Bool.not_eq_true', decide_eq_true_eq] at h1
    push_neg at h1
    exact eq_true_of_ne_false h1.1

theorem validateMoves_errs_mono (nodes : List (PathBuf × FileNode)) :
    ∀ (l : List (PathBuf × PathBuf)) (dests : List PathBuf)
      (errs : List VFSError) {e : VFSError}, e ∈ errs →
      e ∈ (ShadowVFS.validateMoves nodes l dests errs).2
  | [], _, _, _, he => he
  | (src, dest) :: rest, dests, errs, e, he => by
    unfold ShadowVFS.validateMoves
    split
    · exact validateMoves_errs_mono nodes rest dests _
        (List.mem_append_left _ he)
    · split
      · exact validateMoves_errs_mono nodes rest _ _
          (List.mem_append_left _ he)
      · exact validateMoves_errs_mono nodes rest _ _ he

/-- When a staged move targets a destination already in the accumulated
destination set and its source is live, the loop reports a collision for
that destination. -/
theorem validateMoves_hits (nodes : List (PathBuf × FileNode)) (b : PathBuf) :
    ∀ (l : List (PathBuf × PathBuf)) (dests : List PathBuf)
      (errs : List VFSError) (s : PathBuf), (s, b) ∈ l →
      containsKey nodes s = true → b ∈ dests →
      ∃ sd, VFSError.PathCollision sd b.display ∈
        (ShadowVFS.validateMoves nodes l dests errs).2
  | [], _, _, _, hmem, _, _ => absurd hmem (List.not_mem_nil _)
  | (src, dest) :: rest, dests, errs, s, hmem, hck, hb => by
    rcases List.mem_cons.mp hmem with heq | htail
    · obtain ⟨hs, hd⟩ := Prod.mk.injEq .. ▸ heq
      subst hs hd
      unfold ShadowVFS.validateMoves
      split
      · rename_i hbad
        rw [Bool.not_eq_true'] at hbad
        exact absurd hck (by simp [hbad])
      · exact ⟨s.display, validateMoves_errs_mono nodes rest _ _
          (List.mem_append_right _ (List.mem_singleton.mpr rfl))⟩
    · unfold ShadowVFS.validateMoves
      split
      · exact validateMoves_hits nodes b rest dests _ s htail hck hb
      · split <;>
          exact validateMoves_hits nodes b rest _ _ s htail hck
            (insertSet_mem_of_mem hb)

/-- Two staged moves with distinct sources and the same destination, both
with live sources, force a collision report for that destination. -/
theorem validateMoves_dup_dest (nodes : List (PathBuf × FileNode))
    (b : PathBuf) :
    ∀ (l : List (PathBuf × PathBuf)) (dests : List PathBuf)
      (errs : List VFSError) (s1 s2 : PathBuf),
      (s1, b) ∈ l → (s2, b) ∈ l → s1 ≠ s2 →
      containsKey nodes s1 = true → containsKey nodes s2 = true →
      ∃ sd, VFSError.PathCollision sd b.display ∈
        (ShadowVFS.validateMoves nodes l dests errs).2
  | [], _, _, _, _, h1, _, _, _, _ => absurd h1 (List.not_mem_nil _)
  | (src, dest) :: rest, dests, errs, s1, s2, h1, h2, hne, hk1, hk2 => by
    rcases List.mem_cons.mp h1 with heq1 | ht1
    · obtain ⟨hs, hd⟩ := Prod.mk.injEq .. ▸ heq1
      subst hs hd
      have ht2 : (s2, b) ∈ rest := by
        rcases List.mem_cons.mp h2 with heq2 | ht2
        · exact absurd (congrArg Prod.fst heq2).symm hne
        · exact ht2
      unfold ShadowVFS.validateMoves
      split
      · rename_i hbad
        rw [Bool.not_eq_true'] at hbad
        exact absurd hk1 (by simp [hbad])
      · exact validateMoves_hits nodes b rest _ _ s2 ht2 hk2
          (insertSet_self_mem _ _)
    · rcases List.mem_cons.mp h2 with heq2 | ht2
      · obtain ⟨hs, hd⟩ := Prod.mk.injEq .. ▸ heq2
        subst hs hd
        unfold ShadowVFS.validateMoves
        split
        · rename_i hbad
          rw [Bool.not_eq_true'] at hbad
          exact absurd hk2 (by simp [hbad])
        · exact validateMoves_hits nodes b rest _ _ s1 ht1 hk1
            (insertSet_self_mem _ _)
      · unfold ShadowVFS.validateMoves
        split
        · exact validateMoves_dup_dest nodes b rest dests _ s1 s2 ht1 ht2
            hne hk1 hk2
        · split <;>
            exact validateMoves_dup_dest nodes b rest _ _ s1 s2 ht1 ht2
              hne hk1 hk2

end Vfs

namespace Vfs

/-- Example root path `/r` used by the concrete check scenarios. -/
def exRoot : PathBuf := ⟨true, ["r"]⟩

/-- Example file path `/r/a`. -/
def exA : PathBuf := ⟨true, ["r", "a"]⟩

/-- Example path `/r/b` (no node lives there). -/
def exB : PathBuf := ⟨true, ["r", "b"]⟩

/-- Example file path `/r/c`. -/
def exC : PathBuf := ⟨true, ["r", "c"]⟩

/-- Example VFS holding the root and the file `/r/a`. -/
def exVfs : ShadowVFS := (ShadowVFS.new exRoot).insert (FileNode.file exA)

/-- Example VFS holding the root, `/r/a` and `/r/c`. -/
def exVfs2 : ShadowVFS := exVfs.insert (FileNode.file exC)

end Vfs

/-- Decidable equality for `Except`, needed to evaluate the embedded
results on concrete inputs. -/
instance {e a : Type} [DecidableEq e] [DecidableEq a] :
    DecidableEq (Except e a)
  | Except.ok x, Except.ok y =>
    if h : x = y then Decidable.isTrue (by rw [h])
    else Decidable.isFalse (fun hc => h (Except.ok.inj hc))
  | Except.ok _, Except.error _ =>
    Decidable.isFalse (fun hc => Except.noConfusion hc)
  | Except.error _, Except.ok _ =>
    Decidable.isFalse (fun hc => Except.noConfusion hc)
  | Except.error x, Except.error y =>
    if h : x = y then Decidable.isTrue (by rw [h])
    else Decidable.isFalse (fun hc => h (Except.error.inj hc))

/-- C2 counterexample: with `b = a` (an existing live node), `stage_move`
returns `PathCollision`, not the `CycleDetected` the claim requires for
`b == a`: the collision check runs before the cycle check and an existing
destination always collides. -/
theorem stage_move_self_is_collision :
    (Vfs.exVfs.stage_move Vfs.exA Vfs.exA).1 =
      Except.error (Vfs.VFSError.PathCollision "/r/a" "/r/a") := by decide

/-- C2 (amended): `stage_move a b` returns `CycleDetected` iff the source
is a live node (present and not staged for deletion), the destination is
not a live node, and `b` is a proper descendant of `a` (`b` starts with `a`
and `b ≠ a`).  In particular `b = a` never yields `CycleDetected`. -/
theorem stage_move_cycle_characterization (vfs : Vfs.ShadowVFS)
    (src dest : PathBuf) :
    Vfs.isCycleErr (vfs.stage_move src dest).1 =
      (!(!Vfs.containsKey vfs.nodes src || src ∈ vfs.staged_deletes) &&
       !(Vfs.containsKey vfs.nodes dest && dest ∉ vfs.staged_deletes) &&
       (dest.startsWith src && dest ≠ src)) := by
  unfold Vfs.ShadowVFS.stage_move
  split_ifs with h1 h2 h3 h4 h5 <;> simp_all [Vfs.isCycleErr]
  · intro hc hs _ _
    rcases h1 with h | h
    · rw [hc] at h
      exact absurd h (by decide)
    · exact absurd h hs
  · rcases Bool.eq_false_or_eq_true (Vfs.containsKey vfs.nodes dest) with h | h
    · exact Or.inr (h2 h)
    · exact Or.inl h
  · exact fun _ => h3
  · exact fun _ => h3
  · exact fun _ => h3

/-- C3 counterexample: after a successful `stage_move(a, b)`, the call
`stage_move(c, b)` with `c ≠ a` succeeds instead of returning
`PathCollision`: the collision check consults only live nodes, never the
destinations of already-staged moves. -/
theorem second_move_to_staged_dest_succeeds :
    (Vfs.exVfs2.stage_move Vfs.exA Vfs.exB).1 = Except.ok () ∧
    (((Vfs.exVfs2.stage_move Vfs.exA Vfs.exB).2).stage_move
        Vfs.exC Vfs.exB).1 = Except.ok () := by decide

/-- C3 (amended): a second `stage_move(c, b)` with `c ≠ a` is not rejected
at stage time; the duplicated destination is instead reported by
`validate_staged`, which returns a `PathCollision` error for `b`. -/
theorem duplicate_staged_dest_reported {vfs v1 v2 : Vfs.ShadowVFS}
    {a b c : PathBuf}
    (h1 : vfs.stage_move a b = (Except.ok (), v1))
    (h2 : v1.stage_move c b = (Except.ok (), v2))
    (hne : c ≠ a) :
    ∃ errs, v2.validate_staged = Except.error errs ∧
      ∃ sd, Vfs.VFSError.PathCollision sd b.display ∈ errs := by
  obtain ⟨hk1, hv1⟩ := Vfs.stage_move_ok_inv h1
  subst hv1
  obtain ⟨hk2, hv2⟩ := Vfs.stage_move_ok_inv h2
  subst hv2
  simp only at hk2
  have hab : (a, b) ∈
      Vfs.insertMove (Vfs.insertMove vfs.staged_moves a b) c b :=
    Vfs.insertMove_mem_of_mem c b (Vfs.insertMove_self_mem _ a b) hne.symm
  have hcb : (c, b) ∈
      Vfs.insertMove (Vfs.insertMove vfs.staged_moves a b) c b :=
    Vfs.insertMove_self_mem _ c b
  obtain ⟨sd, hmem⟩ := Vfs.validateMoves_dup_dest vfs.nodes b
    (Vfs.insertMove (Vfs.insertMove vfs.staged_moves a b) c b) [] []
    a c hab hcb hne.symm hk1 hk2
  unfold Vfs.ShadowVFS.validate_staged
  simp only
  set e3 := (Vfs.ShadowVFS.validateMoves vfs.nodes
      (Vfs.insertMove (Vfs.insertMove vfs.staged_moves a b) c b) [] []).2 ++
      _ ++ _ with he3
  refine ⟨e3, ?_, sd, ?_⟩
  · rw [if_neg]
    rw [he3]
    intro hemp
    rw [List.isEmpty_iff] at hemp
    have : Vfs.VFSError.PathCollision sd b.display ∈ e3 := by
      rw [he3]
      exact List.mem_append_left _ (List.mem_append_left _ hmem)
    rw [he3] at this
    rw [hemp] at this
    exact List.not_mem_nil _ this
  · rw [he3]
    exact List.mem_append_left _ (List.mem_append_left _ hmem)

theorem applyStageOp_preserves_core (vfs : Vfs.ShadowVFS) (op : Vfs.StageOp) :
    (Vfs.applyStageOp vfs op).nodes = vfs.nodes ∧
    (Vfs.applyStageOp vfs op).root = vfs.root ∧
    (Vfs.applyStageOp vfs op).last_scan = vfs.last_scan ∧
    (Vfs.applyStageOp vfs op).total_size_bytes = vfs.total_size_bytes := by
  cases op <;>
    simp only [Vfs.applyStageOp, Vfs.ShadowVFS.stage_move,
      Vfs.ShadowVFS.stage_create_folder, Vfs.ShadowVFS.stage_delete] <;>
    split_ifs <;> simp

theorem applyStageOps_preserves_core (ops : List Vfs.StageOp) :
    ∀ vfs : Vfs.ShadowVFS,
    (Vfs.applyStageOps vfs ops).nodes = vfs.nodes ∧
    (Vfs.applyStageOps vfs ops).root = vfs.root ∧
    (Vfs.applyStageOps vfs ops).last_scan = vfs.last_scan ∧
    (Vfs.applyStageOps vfs ops).total_size_bytes = vfs.total_size_bytes := by
  induction ops with
  | nil => exact fun vfs => ⟨rfl, rfl, rfl, rfl⟩
  | cons op rest ih =>
    intro vfs
    have hstep := applyStageOp_preserves_core vfs op
    have htail := ih (Vfs.applyStageOp vfs op)
    simp only [Vfs.applyStageOps, List.foldl_cons] at htail ⊢
    exact ⟨htail.1.trans hstep.1, htail.2.1.trans hstep.2.1,
      htail.2.2.1.trans hstep.2.2.1, htail.2.2.2.trans hstep.2.2.2⟩

theorem clear_staged_after_ops (vfs : Vfs.ShadowVFS) (ops : List Vfs.StageOp)
    (h : vfs.has_staged_operations = false) :
    (Vfs.applyStageOps vfs ops).clear_staged = vfs := by
  have hcore := applyStageOps_preserves_core ops vfs
  have hc : vfs.staged_creates = [] := by
    simp only [Vfs.ShadowVFS.has_staged_operations, Bool.or_eq_false_iff,
      Bool.not_eq_false'] at h
    exact List.isEmpty_iff.mp h.1.1
  have hd : vfs.staged_deletes = [] := by
    simp only [Vfs.ShadowVFS.has_staged_operations, Bool.or_eq_false_iff,
      Bool.not_eq_false'] at h
    exact List.isEmpty_iff.mp h.1.2
  have hm : vfs.staged_moves = [] := by
    simp only [Vfs.ShadowVFS.has_staged_operations, Bool.or_eq_false_iff,
      Bool.not_eq_false'] at h
    exact List.isEmpty_iff.mp h.2
  cases vfs with
  | mk nodes root creates deletes moves scan size =>
    simp only at hc hd hm
    subst hc hd hm
    simp only [Vfs.ShadowVFS.clear_staged]
    cases hfin : Vfs.applyStageOps
        ⟨nodes, root, [], [], [], scan, size⟩ ops with
    | mk n2 r2 c2 d2 m2 s2 z2 =>
      rw [hfin] at hcore
      simp only at hcore
      simp [hcore.1, hcore.2.1, hcore.2.2.1, hcore.2.2.2]

/-- C10: staging never mutates the node set — any sequence of `stage_move`,
`stage_create_folder` and `stage_delete` calls leaves `nodes` unchanged —
and, starting from a VFS with no staged operations, a subsequent
`clear_staged` restores `get`, `exists`, `files` and `list_dir` to exactly
their pre-staging results. -/
theorem staging_is_pure (vfs : Vfs.ShadowVFS) (ops : List Vfs.StageOp) :
    (Vfs.applyStageOps vfs ops).nodes = vfs.nodes ∧
    (vfs.has_staged_operations = false →
      (∀ p, ((Vfs.applyStageOps vfs ops).clear_staged).get p = vfs.get p) ∧
      (∀ p, ((Vfs.applyStageOps vfs ops).clear_staged).existsPath p =
        vfs.existsPath p) ∧
      ((Vfs.applyStageOps vfs ops).clear_staged).files = vfs.files ∧
      (∀ p, ((Vfs.applyStageOps vfs ops).clear_staged).list_dir p =
        vfs.list_dir p)) := by
  refine ⟨(applyStageOps_preserves_core ops vfs).1, fun h => ?_⟩
  rw [clear_staged_after_ops vfs ops h]
  exact ⟨fun p => rfl, fun p => rfl, rfl, fun p => rfl⟩

/-- Concrete instantiation of `staging_is_pure`: the example VFS, after a
staged move and a staged delete, has unchanged nodes, and clearing restores
the `get` view of `/r/a`. -/
theorem staging_is_pure_witness :
    (Vfs.applyStageOps Vfs.exVfs2
      [Vfs.StageOp.move Vfs.exA Vfs.exB, Vfs.StageOp.delete Vfs.exC]).nodes =
      Vfs.exVfs2.nodes ∧
    ((Vfs.applyStageOps Vfs.exVfs2
      [Vfs.StageOp.move Vfs.exA Vfs.exB,
       Vfs.StageOp.delete Vfs.exC]).clear_staged).get Vfs.exA =
      Vfs.exVfs2.get Vfs.exA :=
  ⟨(staging_is_pure Vfs.exVfs2 _).1,
   ((staging_is_pure Vfs.exVfs2 _).2 (by decide)).1 Vfs.exA⟩

/-- Concrete instantiation of `duplicate_staged_dest_reported`: in the
example VFS the two staged moves onto `/r/b` yield a `PathCollision` from
`validate_staged`. -/
theorem duplicate_staged_dest_reported_witness :
    ∃ errs, (((Vfs.exVfs2.stage_move Vfs.exA Vfs.exB).2.stage_move
        Vfs.exC Vfs.exB).2).validate_staged = Except.error errs ∧
      ∃ sd, Vfs.VFSError.PathCollision sd Vfs.exB.display ∈ errs :=
  @duplicate_staged_dest_reported Vfs.exVfs2
    (Vfs.exVfs2.stage_move Vfs.exA Vfs.exB).2
    ((Vfs.exVfs2.stage_move Vfs.exA Vfs.exB).2.stage_move Vfs.exC Vfs.exB).2
    Vfs.exA Vfs.exB Vfs.exC (by decide) (by decide) (by decide)


theorem mem_cons_ne_iff {α} {x q : α} {l : List α} (h : x ≠ q) :
    (x ∈ q :: l) ↔ x ∈ l := by
  simp [List.mem_cons, h]

namespace Security

theorem startsWith_root (p : PathBuf) (habs : p.absolute = true) :
    p.startsWith ⟨true, []⟩ = true := by
  simp [PathBuf.startsWith, habs, List.isPrefixOf]

theorem startsWith_single (p : PathBuf) (habs : p.absolute = true)
    (a : String) (tail : List String) (hc : p.components = a :: tail)
    (s : String) :
    p.startsWith ⟨true, [s]⟩ = (s == a) := by
  cases h : (s == a) with
  | true =>
    simp only [beq_iff_eq] at h
    subst h
    simp [PathBuf.startsWith, habs, hc, List.isPrefixOf]
  | false =>
    simp [PathBuf.startsWith, habs, hc, List.isPrefixOf, h]

/-- Behaviour of the protected-path loop past its root entry, for a path of
at least two components that is not under the home directory: the loop
returns `some true` exactly when the list holds the absolute
single-component head of the path and the path has exactly two components;
otherwise it falls through. -/
theorem protectedLoop_tail_spec (home : Option PathBuf) (p : PathBuf)
    (habs : p.absolute = true) (a b : String) (rest : List String)
    (hc : p.components = a :: b :: rest) (hh : underHome home p = false)
    (l : List PathBuf)
    (hshape : ∀ q ∈ l, (q.absolute = true ∧ ∃ s, q.components = [s]) ∨
      (q.absolute = false ∧ q.components ≠ [])) :
    protectedLoop home p l =
      (if (PathBuf.mk true [a] ∈ l) ∧ rest = [] then some true else none) := by
  induction l with
  | nil => simp [protectedLoop]
  | cons q l' ih =>
    have hrec := ih (fun r hr => hshape r (List.mem_cons_of_mem q hr))
    obtain ⟨qa, qc⟩ := q
    rcases hshape ⟨qa, qc⟩ (List.mem_cons_self _ _) with ⟨hqa, s, hqc⟩ |
      ⟨hqa, hqc⟩
    · simp only at hqa hqc
      subst hqa
      subst hqc
      have hne_pq : p ≠ ⟨true, [s]⟩ := by
        intro hpq
        rw [hpq] at hc
        simp at hc
      unfold protectedLoop
      rw [if_neg hne_pq, startsWith_single p habs a (b :: rest) hc s]
      by_cases hsa : s = a
      · subst hsa
        rw [show ((s == s) = true) from by simp, if_pos rfl, hh,
          if_neg (show ¬((false : Bool) = true) from by decide)]
        by_cases hrest : rest = []
        · subst hrest
          have hpar : p.parent = some ⟨true, [s]⟩ := by
            simp [PathBuf.parent, hc, habs]
          rw [if_pos hpar, if_pos ⟨List.mem_cons_self _ _, rfl⟩]
        · have hpar_ne : ¬(p.parent = some (⟨true, [s]⟩ : PathBuf)) := by
            intro hx
            apply hrest
            simp only [PathBuf.parent, hc] at hx
            have h2 := congrArg (fun o =>
              (o.map PathBuf.components).getD []) hx
            simp only [Option.map_some, Option.getD_some] at h2
            have h3 : ((b :: rest).dropLast).length = ([] : List String).length := by
              have h4 := (List.cons.inj h2).2
              rw [h4]
            simp only [List.length_dropLast, List.length_cons,
              List.length_nil, Nat.add_sub_cancel] at h3
            exact List.length_eq_zero.mp h3
          rw [if_neg hpar_ne, hrec,
            if_neg (fun hx => hrest hx.2), if_neg (fun hx => hrest hx.2)]
      · have hsab : (s == a) = false := by simp [hsa]
        rw [hsab, if_neg (show ¬((false : Bool) = true) from by decide),
          hrec]
        have hne_head : (PathBuf.mk true [a]) ≠ (⟨true, [s]⟩ : PathBuf) := by
          intro hx
          have := (PathBuf.mk.injEq ..).mp hx
          simp at this
          exact hsa this.symm
        simp only [mem_cons_ne_iff hne_head]
    · simp only at hqa
      subst hqa
      have hne_pq : p ≠ ⟨false, qc⟩ := by
        intro hpq
        rw [hpq] at habs
        exact Bool.noConfusion habs
      have hqce : qc.isEmpty = false := by
        cases qc with
        | nil => exact absurd rfl hqc
        | cons _ _ => rfl
      have hsw : p.startsWith ⟨false, qc⟩ = false := by
        simp [PathBuf.startsWith, habs, hqce]
      unfold protectedLoop
      rw [if_neg hne_pq, hsw,
        if_neg (show ¬((false : Bool) = true) from by decide), hrec]
      have hne_head : (PathBuf.mk true [a]) ≠ (⟨false, qc⟩ : PathBuf) := by
        intro hx
        have := (PathBuf.mk.injEq ..).mp hx
        exact Bool.noConfusion this.1
      simp only [mem_cons_ne_iff hne_head]

end Security

namespace Security

theorem protectedLoop_cons (home : Option PathBuf) (p q : PathBuf)
    (l : List PathBuf) :
    protectedLoop home p (q :: l) =
      (if p = q then some true
       else if p.startsWith q then
         if underHome home p then some false
         else if p.parent = some q then some true
         else protectedLoop home p l
       else protectedLoop home p l) := rfl

/-- The eleven protected entries after the filesystem root. -/
def protectedTail : List PathBuf :=
  [⟨true, ["System"]⟩,
   ⟨true, ["usr"]⟩,
   ⟨true, ["bin"]⟩,
   ⟨true, ["sbin"]⟩,
   ⟨true, ["Library"]⟩,
   ⟨true, ["Applications"]⟩,
   ⟨true, ["private"]⟩,
   ⟨true, ["var"]⟩,
   ⟨false, ["C:\\Windows"]⟩,
   ⟨false, ["C:\\Program Files"]⟩,
   ⟨false, ["C:\\Program Files (x86)"]⟩]

theorem protectedPaths_eq :
    protectedPaths = (⟨true, []⟩ : PathBuf) :: protectedTail := rfl

theorem protectedTail_shape :
    ∀ q ∈ protectedTail,
      (q.absolute = true ∧ ∃ s, q.components = [s]) ∨
      (q.absolute = false ∧ q.components ≠ []) := by
  intro q hq
  fin_cases hq <;>
    first
      | exact Or.inl ⟨rfl, _, rfl⟩
      | exact Or.inr ⟨rfl, by decide⟩

theorem protected_tail_mem_iff (a : String) :
    ((PathBuf.mk true [a]) ∈ protectedTail) ↔
      a ∈ (["System", "usr", "bin", "sbin", "Library", "Applications",
            "private", "var"] : List String) := by
  simp [protectedTail, List.mem_cons, PathBuf.mk.injEq]

end Security

/-- C6 (amended): for an absolute path `p` with at least one component
(in particular every strict descendant of a protected system directory),
`is_protected_path` classifies `p` as allowed (returns `false`) iff `p`
lies under the home directory or `p` is not a direct child of one of the
protected directories.  Grandchildren and deeper descendants of the
protected directories are allowed even outside the home directory. -/
theorem is_protected_path_allowed_iff (home : Option PathBuf) (p : PathBuf)
    (habs : p.absolute = true) (hne : p.components ≠ []) :
    (Security.is_protected_path home p = false ↔
      (Security.underHome home p = true ∨
        Security.directChildOfProtected p = false)) := by
  have hROOT : p ≠ (⟨true, []⟩ : PathBuf) := by
    intro hx
    rw [hx] at hne
    exact hne rfl
  by_cases hu : Security.underHome home p = true
  · have hloop : Security.protectedLoop home p Security.protectedPaths =
        some false := by
      rw [Security.protectedPaths_eq, Security.protectedLoop_cons,
        if_neg hROOT, Security.startsWith_root p habs, if_pos rfl, hu,
        if_pos rfl]
    simp [Security.is_protected_path, hloop, hu]
  · have hh : Security.underHome home p = false := by
      cases h : Security.underHome home p with
      | false => rfl
      | true => exact absurd h hu
    cases hcomp : p.components with
    | nil => exact absurd hcomp hne
    | cons a tail =>
      cases tail with
      | nil =>
        have hpar : p.parent = some (⟨true, []⟩ : PathBuf) := by
          simp [PathBuf.parent, hcomp, habs]
        have hloop : Security.protectedLoop home p
            Security.protectedPaths = some true := by
          rw [Security.protectedPaths_eq, Security.protectedLoop_cons,
            if_neg hROOT, Security.startsWith_root p habs, if_pos rfl, hh,
            if_neg (show ¬((false : Bool) = true) from by decide),
            if_pos hpar]
        simp [Security.is_protected_path, hloop, hh,
          Security.directChildOfProtected, hcomp]
      | cons b rest =>
        have hpar_ne : ¬(p.parent = some (⟨true, []⟩ : PathBuf)) := by
          simp only [PathBuf.parent, hcomp]
          intro hx
          have h2 := (Option.some.inj hx)
          have h3 := congrArg PathBuf.components h2
          simp [List.dropLast_cons₂] at h3
        have htail := Security.protectedLoop_tail_spec home p habs a b rest
          hcomp hh Security.protectedTail Security.protectedTail_shape
        have hloop : Security.protectedLoop home p Security.protectedPaths =
            (if ((PathBuf.mk true [a]) ∈ Security.protectedTail) ∧ rest = []
             then some true else none) := by
          rw [Security.protectedPaths_eq, Security.protectedLoop_cons,
            if_neg hROOT, Security.startsWith_root p habs, if_pos rfl, hh,
            if_neg (show ¬((false : Bool) = true) from by decide),
            if_neg hpar_ne, htail]
        by_cases hcond : ((PathBuf.mk true [a]) ∈ Security.protectedTail) ∧
            rest = []
        · have hdc : Security.directChildOfProtected p = true := by
            obtain ⟨hmem, hrest⟩ := hcond
            subst hrest
            simp only [Security.directChildOfProtected, hcomp]
            exact decide_eq_true ((Security.protected_tail_mem_iff a).mp hmem)
          rw [if_pos hcond] at hloop
          simp [Security.is_protected_path, hloop, hh, hdc]
        · have hdc : Security.directChildOfProtected p = false := by
            simp only [Security.directChildOfProtected, hcomp]
            cases hrest : rest with
            | nil =>
              subst hrest
              cases hmem : decide
                  (a ∈ (["System", "usr", "bin", "sbin", "Library",
                    "Applications", "private", "var"] : List String)) with
              | true =>
                exfalso
                apply hcond
                exact ⟨(Security.protected_tail_mem_iff a).mpr
                  (of_decide_eq_true hmem), rfl⟩
              | false =>
                simp only [decide_eq_false_iff_not] at hmem
                simp [hmem]
            | cons r0 rs => simp
          rw [if_neg hcond] at hloop
          simp only [Security.is_protected_path, hloop, hdc, hh]
          constructor
          · intro _
            exact Or.inr trivial
          · intro _
            cases home with
            | none => rfl
            | some h =>
              simp only [decide_eq_false_iff_not]
              intro hp
              subst hp
              simp only [Security.underHome, PathBuf.startsWith_refl] at hh
              exact Bool.noConfusion hh

namespace Security

/-- Example home directory `/home/user`. -/
def exHome : PathBuf := ⟨true, ["home", "user"]⟩

/-- Example path `/System/Library/Foo`, a strict descendant of the
protected directory `/System` that does not lie under the home. -/
def exDeep : PathBuf := ⟨true, ["System", "Library", "Foo"]⟩

end Security

/-- C6 counterexample: `/System/Library/Foo` is a strict descendant of the
protected directory `/System` and does not lie under the home directory,
yet `is_protected_path` classifies it as allowed (returns `false`): only
direct children of the protected directories are blocked. -/
theorem deep_system_descendant_allowed :
    Security.is_protected_path (some Security.exHome) Security.exDeep =
      false ∧
    Security.underHome (some Security.exHome) Security.exDeep = false ∧
    Security.exDeep.startsWith ⟨true, ["System"]⟩ = true ∧
    Security.exDeep ≠ ⟨true, ["System"]⟩ := by decide

/-- Concrete instantiation of `is_protected_path_allowed_iff` at
`/System/Library/Foo` with home `/home/user`. -/
theorem is_protected_path_allowed_iff_witness :
    Security.is_protected_path (some Security.exHome) Security.exDeep =
        false ↔
      (Security.underHome (some Security.exHome) Security.exDeep = true ∨
        Security.directChildOfProtected Security.exDeep = false) :=
  is_protected_path_allowed_iff (some Security.exHome) Security.exDeep
    (by decide) (by decide)

namespace Execution

/-- Modelled from the spec: the operation record of
`wal/entry.rs::WALOperationType` (the file is declared by `wal/mod.rs` but
absent from the source tree).  The executor's exhaustive match in
`execution/executor.rs::execute_operation_sync` fixes exactly these six
variants and their fields. -/
inductive WALOperationType where
  | CreateFolder (path : PathBuf)
  | Move (source destination : PathBuf)
  | Rename (path : PathBuf) (new_name : String)
  | Quarantine (path quarantine_path : PathBuf)
  | Copy (source destination : PathBuf)
  | DeleteFolder (path : PathBuf)
deriving DecidableEq, Repr

/-- Kind of one host filesystem entry, at `lstat` granularity: a symlink is
an entry of its own and carries whether its target resolves (so that the
link-following `Path::exists` can be modelled). -/
inductive FsKind where
  | file
  | dir
  | symlinkFile
  | symlinkDir
  | symlinkBroken
deriving DecidableEq, Repr

/-- Flat model of the host filesystem: an association list from path to
entry kind.  Parent-child coherence is not enforced; the executor only
probes individual paths. -/
abbrev Fs := List (PathBuf × FsKind)

/-- Lookup of one entry (lstat-level: never follows links). -/
def lookupFs (fs : Fs) (p : PathBuf) : Option FsKind :=
  (fs.find? (fun e => e.1 = p)).map (·.2)

/-- Model of `Path::exists`, which follows symlinks: a symlink entry exists
iff its target resolves. -/
def pathExists (fs : Fs) (p : PathBuf) : Bool :=
  match lookupFs fs p with
  | some FsKind.file => true
  | some FsKind.dir => true
  | some FsKind.symlinkFile => true
  | some FsKind.symlinkDir => true
  | _ => false

/-- Model of `Path::is_dir`, which follows symlinks. -/
def pathIsDir (fs : Fs) (p : PathBuf) : Bool :=
  match lookupFs fs p with
  | some FsKind.dir => true
  | some FsKind.symlinkDir => true
  | _ => false

/-- Removes the entry at `p` (model of `fs::remove_file`/`fs::remove_dir`:
the entry itself is unlinked, a symlink is never followed). -/
def eraseFs (fs : Fs) (p : PathBuf) : Fs :=
  fs.filter (fun e => e.1 ≠ p)

/-- Stores kind `k` at `p`, replacing any previous entry. -/
def insertFs (fs : Fs) (p : PathBuf) (k : FsKind) : Fs :=
  eraseFs fs p ++ [(p, k)]

/-- Model of `fs::rename`: the entry itself moves (a symlink is moved, not
followed); fails iff the source entry is absent.  The cross-device failure
mode, which the source handles with a copy-then-delete fallback, is
environment-specific and not modelled: in this model a present source
always renames. -/
def renameFs (fs : Fs) (src dst : PathBuf) : Option Fs :=
  match lookupFs fs src with
  | none => none
  | some k => some (insertFs (eraseFs fs src) dst k)

/-- Model of `fs::create_dir_all` over the flat map: records the directory
entry (intermediate ancestors are not tracked by the flat model). -/
def createDirAll (fs : Fs) (p : PathBuf) : Fs :=
  insertFs fs p FsKind.dir

/-- Kind an entry receives when re-created by the executor's recursive copy
(`fs::copy` follows links and writes a regular file; directories are
recreated as directories). -/
def copiedKind : FsKind → FsKind
  | FsKind.dir => FsKind.dir
  | FsKind.symlinkDir => FsKind.dir
  | _ => FsKind.file

/-- Model of `execution/executor.rs::copy_dir_all`: the destination
directory is created and every entry under `src` is re-created under `dst`.
Its error paths (unreadable entries, links to directories) are not
modelled; no verified claim reaches a directory copy. -/
def copyDirAll (fs : Fs) (src dst : PathBuf) : Fs :=
  let copies := fs.filterMap (fun e =>
    if e.1.startsWith src then
      some ((PathBuf.mk dst.absolute
        (dst.components ++ e.1.components.drop src.components.length)),
        copiedKind e.2)
    else none)
  copies.foldl (fun acc e => insertFs acc e.1 e.2)
    (insertFs fs dst FsKind.dir)

/-- Model of `fs::remove_dir_all` (also covers `remove_dir` on an empty
directory): removes `p` and everything below it. -/
def removeDirAll (fs : Fs) (p : PathBuf) : Fs :=
  fs.filter (fun e => !(e.1.startsWith p))

/-- Model of the emptiness probe of the `DeleteFolder` arm
(`fs::read_dir(path)` yielding no entry): no other entry has `p` as its
parent. -/
def dirIsEmpty (fs : Fs) (p : PathBuf) : Bool :=
  !(fs.any (fun e => e.1 ≠ p && e.1.parent = some p))

/-- Embedding of the `Move` arm of
`execution/executor.rs::execute_operation_sync` (also reached by the
`Quarantine` arm, which the source dispatches as a `Move`). -/
def execMove (home : Option PathBuf) (fs : Fs)
    (source destination : PathBuf) : Except String Unit × Fs :=
  if pathExists fs source = false then
    if pathExists fs destination then (Except.ok (), fs)
    else (Except.error ("Source not found: " ++ source.display), fs)
  else if pathExists fs destination then
    (Except.error ("Destination already exists: " ++
      destination.display), fs)
  else if Security.is_protected_path home source then
    (Except.error ("Cannot move protected path: " ++ source.display), fs)
  else
    let fs1 := match destination.parent with
      | some par => if pathExists fs par = false then createDirAll fs par
                    else fs
      | none => fs
    match renameFs fs1 source destination with
    | some fs2 => (Except.ok (), fs2)
    | none =>
      if pathIsDir fs1 source then
        (Except.ok (), removeDirAll (copyDirAll fs1 source destination)
          source)
      else
        (Except.ok (), eraseFs (insertFs fs1 destination FsKind.file)
          source)

/-- Embedding of `execution/executor.rs::execute_operation_sync` over the
flat filesystem model; `home` models `dirs::home_dir()` consulted by the
protected-path checks.  I/O errors of the host primitives themselves
(`create_dir_all`, `copy`, `remove_*`) are not modelled: the primitives
are total in the flat model. -/
def execute_operation_sync (home : Option PathBuf)
    (operation : WALOperationType) (fs : Fs) : Except String Unit × Fs :=
  match operation with
  | WALOperationType.CreateFolder path =>
    if pathExists fs path then (Except.ok (), fs)
    else (Except.ok (), createDirAll fs path)
  | WALOperationType.Move source destination =>
    execMove home fs source destination
  | WALOperationType.Rename path new_name =>
    if pathExists fs path = false then
      (Except.error ("Path not found: " ++ path.display), fs)
    else
      match path.parent with
      | none =>
        (Except.error ("Cannot determine parent of " ++ path.display), fs)
      | some par =>
        let new_path := par.join new_name
        if pathExists fs new_path then
          (Except.error ("Target already exists: " ++ new_path.display),
            fs)
        else if Security.is_protected_path home path then
          (Except.error ("Cannot rename protected path: " ++ path.display),
            fs)
        else
          match renameFs fs path new_path with
          | some fs2 => (Except.ok (), fs2)
          | none =>
            (Except.error ("Failed to rename " ++ path.display ++ " to " ++
              new_name), fs)
  | WALOperationType.Quarantine path quarantine_path =>
    execMove home fs path quarantine_path
  | WALOperationType.Copy source destination =>
    if pathExists fs source = false then
      (Except.error ("Source not found: " ++ source.display), fs)
    else if pathExists fs destination then
      (Except.error ("Destination already exists: " ++
        destination.display), fs)
    else
      let fs1 := match destination.parent with
        | some par => if pathExists fs par = false then createDirAll fs par
                      else fs
        | none => fs
      if pathIsDir fs1 source then
        (Except.ok (), copyDirAll fs1 source destination)
      else
        (Except.ok (), insertFs fs1 destination FsKind.file)
  | WALOperationType.DeleteFolder path =>
    if pathExists fs path = false then (Except.ok (), fs)
    else if Security.is_protected_path home path then
      (Except.error ("Cannot delete protected path: " ++ path.display), fs)
    else if pathIsDir fs path = false then (Except.ok (), eraseFs fs path)
    else if dirIsEmpty fs path then (Except.ok (), eraseFs fs path)
    else (Except.ok (), removeDirAll fs path)

/-- Example directory `/t`. -/
def exT : PathBuf := ⟨true, ["t"]⟩

/-- Example symlink path `/t/link`. -/
def exLink : PathBuf := ⟨true, ["t", "link"]⟩

/-- Example destination `/t/moved`. -/
def exMoved : PathBuf := ⟨true, ["t", "moved"]⟩

/-- Example filesystem: directory `/t` holding the symlink `/t/link` whose
target resolves to a file. -/
def exFsLink : Fs := [(exT, FsKind.dir), (exLink, FsKind.symlinkFile)]

/-- Example missing path `/t/gone`. -/
def exGone : PathBuf := ⟨true, ["t", "gone"]⟩

/-- Example file `/t/f`. -/
def exF : PathBuf := ⟨true, ["t", "f"]⟩

/-- Example filesystem: directory `/t` holding the regular file `/t/f`. -/
def exFsPlain : Fs := [(exT, FsKind.dir), (exF, FsKind.file)]

end Execution

/-- C1: evaluation at the failing input.  The source of the `Move` is a
symbolic link (whose target resolves), yet `execute_operation_sync`
performs the rename and reports success — the symlink entry itself moves
from `/t/link` to `/t/moved`.  No arm of the dispatcher consults
`is_symlink`/`ensure_not_symlink`, so the refusal the claim requires never
happens. -/
theorem executor_moves_symlink_source :
    Execution.lookupFs Execution.exFsLink Execution.exLink =
      some Execution.FsKind.symlinkFile ∧
    (Execution.execute_operation_sync none
      (Execution.WALOperationType.Move Execution.exLink Execution.exMoved)
      Execution.exFsLink).1 = Except.ok () ∧
    Execution.lookupFs
      (Execution.execute_operation_sync none
        (Execution.WALOperationType.Move Execution.exLink Execution.exMoved)
        Execution.exFsLink).2 Execution.exMoved =
      some Execution.FsKind.symlinkFile ∧
    Execution.lookupFs
      (Execution.execute_operation_sync none
        (Execution.WALOperationType.Move Execution.exLink Execution.exMoved)
        Execution.exFsLink).2 Execution.exLink = none := by decide

/-- C9: replaying an already-applied operation is idempotent.
`CreateFolder` on an existing path, `Move` whose source is gone and whose
destination exists, and `DeleteFolder` on a missing path each return
success and leave the filesystem exactly as it was. -/
theorem replay_idempotent (home : Option PathBuf) (fs : Execution.Fs)
    (p src dst q : PathBuf) :
    (Execution.pathExists fs p = true →
      Execution.execute_operation_sync home
        (Execution.WALOperationType.CreateFolder p) fs =
        (Except.ok (), fs)) ∧
    (Execution.pathExists fs src = false →
      Execution.pathExists fs dst = true →
      Execution.execute_operation_sync home
        (Execution.WALOperationType.Move src dst) fs =
        (Except.ok (), fs)) ∧
    (Execution.pathExists fs q = false →
      Execution.execute_operation_sync home
        (Execution.WALOperationType.DeleteFolder q) fs =
        (Except.ok (), fs)) := by
  refine ⟨fun h => ?_, fun h1 h2 => ?_, fun h => ?_⟩
  · simp [Execution.execute_operation_sync, h]
  · simp [Execution.execute_operation_sync, Execution.execMove, h1, h2]
  · simp [Execution.execute_operation_sync, h]

/-- Concrete instantiation of `replay_idempotent` on the example
filesystem `/t` + `/t/f`. -/
theorem replay_idempotent_witness :
    Execution.execute_operation_sync none
      (Execution.WALOperationType.CreateFolder Execution.exT)
      Execution.exFsPlain = (Except.ok (), Execution.exFsPlain) ∧
    Execution.execute_operation_sync none
      (Execution.WALOperationType.Move Execution.exGone Execution.exF)
      Execution.exFsPlain = (Except.ok (), Execution.exFsPlain) ∧
    Execution.execute_operation_sync none
      (Execution.WALOperationType.DeleteFolder Execution.exGone)
      Execution.exFsPlain = (Except.ok (), Execution.exFsPlain) :=
  ⟨(replay_idempotent none Execution.exFsPlain Execution.exT
      Execution.exGone Execution.exF Execution.exGone).1 (by decide),
   (replay_idempotent none Execution.exFsPlain Execution.exT
      Execution.exGone Execution.exF Execution.exGone).2.1 (by decide)
      (by decide),
   (replay_idempotent none Execution.exFsPlain Execution.exT
      Execution.exGone Execution.exF Execution.exGone).2.2 (by decide)⟩

namespace AiV2

/-- Embedding of `ai/rules/ast.rs::ComparisonOp`. -/
inductive ComparisonOp where
  | Eq
  | Ne
  | Gt
  | Lt
  | Gte
  | Lte
  | In
  | Matches
deriving DecidableEq, Repr

/-- Embedding of `ai/rules/ast.rs::Field`. -/
inductive Field where
  | FileName
  | FileExt
  | FileSize
  | FilePath
  | FileModifiedAt
  | FileCreatedAt
  | FileMimeType
  | FileIsHidden
deriving DecidableEq, Repr

/-- Embedding of `ai/rules/ast.rs::FunctionName`. -/
inductive FunctionName where
  | Contains
  | StartsWith
  | EndsWith
  | Matches
  | VectorSimilarity
deriving DecidableEq, Repr

/-- Embedding of `ai/rules/ast.rs::Value`.  The `f64` payload of `Number`
is carried opaquely (its only consumer, the evaluator, is absent from the
source tree and abstracted below); the embedding stores the numeric
literal as an `Int` scaled mantissa-free stand-in. -/
inductive Value where
  | String (s : String)
  | Number (n : Int)
  | Boolean (b : Bool)
  | Array (vs : List Value)
  | SizeBytes (n : Nat)
  | Null

/-- Embedding of `ai/rules/ast.rs::Comparison`. -/
structure Comparison where
  field : Field
  op : ComparisonOp
  value : Value

/-- Embedding of `ai/rules/ast.rs::FunctionCall`. -/
structure FunctionCall where
  receiver : String
  function : FunctionName
  args : List Value

/-- Embedding of `ai/rules/ast.rs::Expression`. -/
inductive Expression where
  | Or (left right : Expression)
  | And (left right : Expression)
  | Not (e : Expression)
  | Comparison (c : Comparison)
  | FunctionCall (f : FunctionCall)
  | Literal (b : Bool)

/-- Modelled from the spec: `VirtualFile` (spec §3; defined in the
`ai/rules` evaluator files absent from the source tree).  Paths in the
`ai/v2` planner are strings (`to_string_lossy` renderings). -/
structure VirtualFile where
  path : String
  name : String
  ext : Option String
  size : Nat
  created_at : Option Int
  modified_at : Option Int
  mime_type : Option String
  is_hidden : Bool
  is_directory : Bool
  is_symlink : Bool
  content_preview : Option String
deriving DecidableEq, Repr

/-- Embedding of `ai/v2/vfs.rs::OperationType`. -/
inductive OperationType where
  | CreateFolder
  | Move
  | Rename
  | Trash
deriving DecidableEq, Repr

/-- Embedding of `ai/v2/vfs.rs::PlannedOperation`. -/
structure PlannedOperation where
  op_id : String
  op_type : OperationType
  source : Option String
  destination : Option String
  path : Option String
  new_name : Option String
  rule_name : Option String
deriving DecidableEq, Repr

/-- Embedding of `ai/v2/vfs.rs::OrganizationRule`. -/
structure OrganizationRule where
  name : String
  condition : String
  then_move_to : Option String
  then_rename_to : Option String
  priority : Option Int
deriving DecidableEq, Repr

/-- Embedding of `ai/v2/vfs.rs::ShadowVFS` (the planner-side VFS).  The
`HashMap<String, VirtualFile>` is an association list; the vector index is
absorbed into the evaluator parameter of `applyRules` (the evaluator files
are absent from the source tree). -/
structure ShadowVFS where
  root : String
  files : List (String × VirtualFile)
  operations : List PlannedOperation
  op_counter : Nat
deriving DecidableEq, Repr

/-- Embedding of `ai/v2/vfs.rs::MAX_OPERATIONS`. -/
def MAX_OPERATIONS : Nat := 5000

/-- Association-list model of `HashMap<String, _>::contains_key`. -/
def containsKeyStr (files : List (String × VirtualFile)) (k : String) :
    Bool :=
  (files.find? (fun e => e.1 = k)).isSome

/-- List model of `HashSet<String>::insert`. -/
def insertStr (s : List String) (x : String) : List String :=
  if x ∈ s then s else s ++ [x]

/-- Embedding of `ai/v2/vfs.rs::ShadowVFS::files`: the values that are not
directories. -/
def filesOf (files : List (String × VirtualFile)) : List VirtualFile :=
  files.filterMap (fun e => if e.2.is_directory then none else some e.2)

/-- Model of `str::starts_with` by character-list comparison. -/
def strStartsWith (s pre : String) : Bool :=
  pre.data.isPrefixOf s.data

/-- Character-list worker for `str::replace`: replaces every
non-overlapping occurrence of `pat`, scanning left to right; the fuel is
the input length (each step consumes at least one character). -/
def replaceFuel (pat rep : List Char) : Nat → List Char → List Char
  | 0, s => s
  | _ + 1, [] => []
  | fuel + 1, c :: cs =>
    if pat.isPrefixOf (c :: cs) && !pat.isEmpty then
      rep ++ replaceFuel pat rep fuel ((c :: cs).drop pat.length)
    else c :: replaceFuel pat rep fuel cs

/-- Model of `str::replace` (an empty pattern, which the embedded call
sites never pass, is a no-op here). -/
def strReplace (s pat rep : String) : String :=
  String.mk (replaceFuel pat.data rep.data s.data.length s.data)

/-- Character-list worker for `Path::file_name`: the segment after the
last separator. -/
def lastSegment : List Char → List Char → List Char
  | [], cur => cur
  | c :: cs, cur =>
    if c = (Char.ofNat 47) then lastSegment cs []
    else lastSegment cs (cur ++ [c])

/-- Model of `Path::new(s).file_name()` on the string paths of the
planner: the last `/`-separated segment (`.unwrap_or_default()` turns a
missing name into the empty string). -/
def fileNameOf (s : String) : String :=
  String.mk (lastSegment s.data [])

/-- A single-quote character, used by the parse-error message format
`Failed to parse rule '{}': {}` of `apply_rules`. -/
def singleQuote : String := String.singleton (Char.ofNat 39)

/-- The operation-limit error message of `apply_rules`:
`Operation limit exceeded ({} > {}). Try organizing smaller subfolders
separately.` -/
def limitExceededMsg (opsLen : Nat) : String :=
  "Operation limit exceeded (" ++ toString opsLen ++ " > " ++
    toString MAX_OPERATIONS ++ "). Try organizing smaller subfolders separately."

/-- Two-digit zero-padded rendering (chrono `%m` / `%d`). -/
def pad2 (n : Nat) : String :=
  if n < 10 then "0" ++ toString n else toString n

/-- Four-digit zero-padded year rendering (chrono `%Y`). -/
def pad4 (y : Int) : String :=
  let s :=
    if y.natAbs < 10 then "000" ++ toString y.natAbs
    else if y.natAbs < 100 then "00" ++ toString y.natAbs
    else if y.natAbs < 1000 then "0" ++ toString y.natAbs
    else toString y.natAbs
  if y < 0 then "-" ++ s else s

/-- Civil date from days since the Unix epoch (the standard
civil-from-days algorithm, matching chrono's proleptic Gregorian
calendar). -/
def civilFromDays (z0 : Int) : Int × Nat × Nat :=
  let z := z0 + 719468
  let era := Int.fdiv z 146097
  let doe := (z - era * 146097).toNat
  let yoe := (doe - doe / 1460 + doe / 36524 - doe / 146096) / 365
  let y : Int := (yoe : Int) + era * 400
  let doy := doe - (365 * yoe + yoe / 4 - yoe / 100)
  let mp := (5 * doy + 2) / 153
  let d := doy - (153 * mp + 2) / 5 + 1
  let m := if mp < 10 then mp + 3 else mp - 9
  (if m ≤ 2 then y + 1 else y, m, d)

/-- Model of `chrono::DateTime::from_timestamp_millis(ms)` followed by
`format("%Y-%m-%d")` in `apply_rename_pattern` (chrono's range guard,
which yields an empty string far outside the representable range, is not
modelled; no claim evaluates dates). -/
def formatTimestampMillis (ms : Int) : String :=
  let days := Int.fdiv ms 86400000
  let ymd := civilFromDays days
  pad4 ymd.1 ++ "-" ++ pad2 ymd.2.1 ++ "-" ++ pad2 ymd.2.2

/-- Embedding of `ai/v2/vfs.rs::ShadowVFS::apply_rename_pattern`. -/
def apply_rename_pattern (pattern : String) (file : VirtualFile) : String :=
  let result := strReplace pattern "{name}" file.name
  let result := match file.ext with
    | some ext => strReplace result "{ext}" ext
    | none => result
  match file.modified_at with
  | some modified =>
    strReplace result "{date}" (formatTimestampMillis modified)
  | none => result

/-- Running state of one `apply_rules` call: the `self.operations` and
`self.op_counter` fields plus the call-local `processed_files`,
`folders_to_create` and `operations_created`. -/
structure RuleRunState where
  operations : List PlannedOperation
  op_counter : Nat
  processed_files : List String
  folders_to_create : List String
  operations_created : Nat
deriving DecidableEq, Repr

/-- Embedding of the per-matched-file body of the `apply_rules` loop:
record the file as processed, emit the move and rename operations the rule
asks for, then enforce the operation cap.  An error carries the state as
mutated so far (the Rust code returns `Err` with `self` already
updated). -/
def applyRuleToFile (root : String) (files : List (String × VirtualFile))
    (rule : OrganizationRule) (file : VirtualFile) (st0 : RuleRunState) :
    Except (String × RuleRunState) RuleRunState :=
  let st1 := { st0 with
    processed_files := insertStr st0.processed_files file.path }
  let st2 := match rule.then_move_to with
    | some dest_folder =>
      let dest_path := if strStartsWith dest_folder "/" then dest_folder
        else root ++ "/" ++ dest_folder
      let stf :=
        if !(st1.folders_to_create.contains dest_path) &&
            !(containsKeyStr files dest_path) then
          { st1 with
            folders_to_create := st1.folders_to_create ++ [dest_path] }
        else st1
      let file_name := fileNameOf file.path
      { stf with
        op_counter := stf.op_counter + 1
        operations := stf.operations ++
          [{ op_id := "op-" ++ toString (stf.op_counter + 1)
             op_type := OperationType.Move
             source := some file.path
             destination := some (dest_path ++ "/" ++ file_name)
             path := none
             new_name := none
             rule_name := some rule.name }]
        operations_created := stf.operations_created + 1 }
    | none => st1
  let st3 := match rule.then_rename_to with
    | some pattern =>
      { st2 with
        op_counter := st2.op_counter + 1
        operations := st2.operations ++
          [{ op_id := "op-" ++ toString (st2.op_counter + 1)
             op_type := OperationType.Rename
             source := none
             destination := none
             path := some file.path
             new_name := some (apply_rename_pattern pattern file)
             rule_name := some rule.name }]
        operations_created := st2.operations_created + 1 }
    | none => st2
  if st3.operations.length > MAX_OPERATIONS then
    Except.error (limitExceededMsg st3.operations.length, st3)
  else Except.ok st3

/-- Embedding of the inner `for file in matching_files` loop. -/
def runFiles (root : String) (files : List (String × VirtualFile))
    (rule : OrganizationRule) :
    List VirtualFile → RuleRunState →
    Except (String × RuleRunState) RuleRunState
  | [], st => Except.ok st
  | f :: rest, st =>
    match applyRuleToFile root files rule f st with
    | Except.error e => Except.error e
    | Except.ok st2 => runFiles root files rule rest st2

/-- Embedding of the outer `for rule in &sorted_rules` loop of
`apply_rules`, parameterized over the missing parser and evaluator
(`ai/rules/parser.rs` and `ai/rules/evaluator.rs` are declared by
`ai/rules/mod.rs` but absent from the source tree).  A parse failure is
fatal to the call; a per-file evaluation error counts as a non-match
(`unwrap_or(false)`). -/
def runRules (parse : String → Except String Expression)
    (eval : Expression → VirtualFile → Except String Bool)
    (root : String) (files : List (String × VirtualFile)) :
    List OrganizationRule → RuleRunState →
    Except (String × RuleRunState) RuleRunState
  | [], st => Except.ok st
  | rule :: rest, st =>
    match parse rule.condition with
    | Except.error e =>
      Except.error ("Failed to parse rule " ++ singleQuote ++ rule.name ++
        singleQuote ++ ": " ++ e, st)
    | Except.ok expr =>
      let matching := (filesOf files).filter (fun f =>
        !(st.processed_files.contains f.path) &&
        (match eval expr f with
         | Except.ok b => b
         | Except.error _ => false))
      match runFiles root files rule matching st with
      | Except.error e => Except.error e
      | Except.ok st2 => runRules parse eval root files rest st2

/-- Embedding of `ai/v2/vfs.rs::ShadowVFS::apply_rules`.  Rules run in
stable descending priority order (`sort_by_key(Reverse(priority))`,
modelled by the stable `insertionSort`); on success the accumulated
`CreateFolder` operations are prepended; on error the operations and
counter mutated so far stay on the VFS. -/
def applyRules (parse : String → Except String Expression)
    (eval : Expression → VirtualFile → Except String Bool)
    (vfs : ShadowVFS) (rules : List OrganizationRule) (mode : String) :
    Except String Nat × ShadowVFS :=
  let ops0 := if mode == "replace" then [] else vfs.operations
  let sorted_rules := List.insertionSort
    (fun a b => (b.priority.getD 0) ≤ (a.priority.getD 0)) rules
  let st0 : RuleRunState := ⟨ops0, vfs.op_counter, [], [], 0⟩
  match runRules parse eval vfs.root vfs.files sorted_rules st0 with
  | Except.error e =>
    (Except.error e.1,
     { vfs with operations := e.2.operations, op_counter := e.2.op_counter })
  | Except.ok st =>
    let folderAcc := st.folders_to_create.foldl
      (fun (acc : List PlannedOperation × Nat) path =>
        (acc.1 ++
          [{ op_id := "op-" ++ toString (acc.2 + 1)
             op_type := OperationType.CreateFolder
             source := none
             destination := none
             path := some path
             new_name := none
             rule_name := none }],
         acc.2 + 1)) ([], st.op_counter)
    (Except.ok st.operations_created,
     { vfs with operations := folderAcc.1 ++ st.operations,
                op_counter := folderAcc.2 })

end AiV2

namespace AiV2

/-- Parser used by the concrete scenarios.  Modelled from the spec: the
grammar (`RuleParser::parse` lives in `ai/rules/parser.rs`, absent from
the source tree) accepts the boolean literal `true` and rejects an
unbalanced parenthesis with a parse error. -/
def parseCE : String → Except String Expression := fun c =>
  if c == "true" then Except.ok (Expression.Literal true)
  else Except.error "Unexpected token"

/-- Evaluator used by the concrete scenarios.  Modelled from the spec: a
boolean literal evaluates to itself (`ai/rules/evaluator.rs` is absent
from the source tree). -/
def evalCE : Expression → VirtualFile → Except String Bool := fun e _ =>
  match e with
  | Expression.Literal b => Except.ok b
  | _ => Except.error "unsupported expression"

/-- Example planner file `/root/a.pdf`. -/
def exPdf : VirtualFile :=
  { path := "/root/a.pdf"
    name := "a"
    ext := some "pdf"
    size := 10
    created_at := none
    modified_at := none
    mime_type := some "application/pdf"
    is_hidden := false
    is_directory := false
    is_symlink := false
    content_preview := none }

/-- Example planner VFS rooted at `/root` holding one file. -/
def exAiVfs : ShadowVFS :=
  { root := "/root"
    files := [("/root/a.pdf", exPdf)]
    operations := []
    op_counter := 0 }

/-- Rule whose condition fails to parse (priority 10, so it sorts
first). -/
def ruleBad : OrganizationRule :=
  { name := "bad"
    condition := "("
    then_move_to := some "Docs"
    then_rename_to := none
    priority := some 10 }

/-- Well-formed rule that matches every file (priority 1). -/
def ruleGood : OrganizationRule :=
  { name := "good"
    condition := "true"
    then_move_to := some "Docs"
    then_rename_to := none
    priority := some 1 }

/-- Pre-seeded dummy operation used to fill the planned-operation list. -/
def dummyOp : PlannedOperation :=
  { op_id := "seed"
    op_type := OperationType.Trash
    source := none
    destination := none
    path := some "/root/x"
    new_name := none
    rule_name := none }

/-- Example planner VFS already carrying 5000 planned operations. -/
def bigVfs : ShadowVFS :=
  { root := "/root"
    files := [("/root/a.pdf", exPdf)]
    operations := List.replicate 5000 dummyOp
    op_counter := 0 }

/-- Discriminator: the `apply_rules` result is an error. -/
def isErrRes : Except String Nat → Bool
  | Except.error _ => true
  | Except.ok _ => false

end AiV2

/-- C4 counterexample: with two rules, the higher-priority one failing to
parse, `apply_rules` returns the parse error and produces no operation at
all — the well-formed rule is never evaluated, although on its own it
would have produced operations. -/
theorem parse_error_aborts_batch :
    (AiV2.applyRules AiV2.parseCE AiV2.evalCE AiV2.exAiVfs
      [AiV2.ruleBad, AiV2.ruleGood] "append").1 =
      Except.error ("Failed to parse rule " ++ AiV2.singleQuote ++ "bad" ++
        AiV2.singleQuote ++ ": Unexpected token") ∧
    ((AiV2.applyRules AiV2.parseCE AiV2.evalCE AiV2.exAiVfs
      [AiV2.ruleBad, AiV2.ruleGood] "append").2).operations = [] ∧
    ((AiV2.applyRules AiV2.parseCE AiV2.evalCE AiV2.exAiVfs
      [AiV2.ruleGood] "append").2).operations ≠ [] := by decide

theorem runRules_err_of_parse_fail
    (parse : String → Except String AiV2.Expression)
    (eval : AiV2.Expression → AiV2.VirtualFile → Except String Bool)
    (root : String) (files : List (String × AiV2.VirtualFile)) :
    ∀ (l : List AiV2.OrganizationRule) (st : AiV2.RuleRunState),
      (∃ r ∈ l, (parse r.condition).isOk = false) →
      ∃ e, AiV2.runRules parse eval root files l st = Except.error e
  | [], _, h => absurd h (by simp)
  | rule :: rest, st, h => by
    cases hp : parse rule.condition with
    | error e =>
      exact ⟨("Failed to parse rule " ++ AiV2.singleQuote ++ rule.name ++
        AiV2.singleQuote ++ ": " ++ e, st), by simp [AiV2.runRules, hp]⟩
    | ok expr =>
      obtain ⟨r, hr, hne⟩ := h
      rcases List.mem_cons.mp hr with rfl | hrt
      · rw [hp] at hne
        simp [Except.isOk, Except.toBool] at hne
      · unfold AiV2.runRules
        rw [hp]
        simp only
        cases hrf : AiV2.runFiles root files rule
            ((AiV2.filesOf files).filter (fun f =>
              !(st.processed_files.contains f.path) &&
              (match eval expr f with
               | Except.ok b => b
               | Except.error _ => false))) st with
        | error e2 => exact ⟨e2, rfl⟩
        | ok st2 =>
          exact runRules_err_of_parse_fail parse eval root files rest st2
            ⟨r, hrt, hne⟩

/-- C4 (amended): a parse error in any rule's condition is fatal to the
whole `apply_rules` call: whenever some rule's condition fails to parse,
the call returns an error — rules sorted after the failing one are never
evaluated and no operation count is returned. -/
theorem rule_parse_error_fatal_to_call
    (parse : String → Except String AiV2.Expression)
    (eval : AiV2.Expression → AiV2.VirtualFile → Except String Bool)
    (vfs : AiV2.ShadowVFS) (rules : List AiV2.OrganizationRule)
    (mode : String)
    (h : ∃ r ∈ rules, (parse r.condition).isOk = false) :
    ∃ msg vfs', AiV2.applyRules parse eval vfs rules mode =
      (Except.error msg, vfs') := by
  obtain ⟨r, hr, hne⟩ := h
  have hmem2 : r ∈ List.insertionSort
      (fun a b => (b.priority.getD 0) ≤ (a.priority.getD 0)) rules :=
    (List.perm_insertionSort _ rules).mem_iff.mpr hr
  obtain ⟨e, heq⟩ := runRules_err_of_parse_fail parse eval vfs.root vfs.files
    (List.insertionSort (fun a b => (b.priority.getD 0) ≤ (a.priority.getD 0))
      rules)
    ⟨(if mode == "replace" then [] else vfs.operations),
      vfs.op_counter, [], [], 0⟩ ⟨r, hmem2, hne⟩
  refine ⟨e.1,
    { vfs with operations := e.2.operations, op_counter := e.2.op_counter },
    ?_⟩
  simp only [AiV2.applyRules]
  rw [heq]

/-- Concrete instantiation of `rule_parse_error_fatal_to_call` on the
two-rule scenario. -/
theorem rule_parse_error_fatal_witness :
    ∃ msg vfs', AiV2.applyRules AiV2.parseCE AiV2.evalCE AiV2.exAiVfs
      [AiV2.ruleBad, AiV2.ruleGood] "append" = (Except.error msg, vfs') :=
  rule_parse_error_fatal_to_call AiV2.parseCE AiV2.evalCE AiV2.exAiVfs
    [AiV2.ruleBad, AiV2.ruleGood] "append"
    ⟨AiV2.ruleBad, List.mem_cons_self _ _, by decide⟩

/-- Inversion of the operation-cap failure: an error produced by the
per-file body is the limit message for the state it carries, whose
operation list exceeds the cap. -/
theorem applyRuleToFile_err_inv {root : String}
    {files : List (String × AiV2.VirtualFile)}
    {rule : AiV2.OrganizationRule} {file : AiV2.VirtualFile}
    {st0 : AiV2.RuleRunState} {m : String} {st' : AiV2.RuleRunState}
    (h : AiV2.applyRuleToFile root files rule file st0 =
      Except.error (m, st')) :
    st'.operations.length > AiV2.MAX_OPERATIONS ∧
    m = AiV2.limitExceededMsg st'.operations.length := by
  simp only [AiV2.applyRuleToFile] at h
  split at h
  · rename_i hgt
    obtain ⟨h1, h2⟩ := Prod.mk.injEq .. ▸ (Except.error.inj h)
    subst h2
    exact ⟨hgt, h1.symm⟩
  · exact absurd h (by simp)

theorem runFiles_err_inv {root : String}
    {files : List (String × AiV2.VirtualFile)}
    {rule : AiV2.OrganizationRule} :
    ∀ {fl : List AiV2.VirtualFile} {st : AiV2.RuleRunState} {m : String}
      {st' : AiV2.RuleRunState},
      AiV2.runFiles root files rule fl st = Except.error (m, st') →
      st'.operations.length > AiV2.MAX_OPERATIONS ∧
      m = AiV2.limitExceededMsg st'.operations.length
  | [], _, _, _, h => absurd h (by simp [AiV2.runFiles])
  | f :: rest, st, m, st', h => by
    rw [AiV2.runFiles] at h
    cases happ : AiV2.applyRuleToFile root files rule f st with
    | error e =>
      rw [happ] at h
      simp only at h
      obtain rfl : e = (m, st') := Except.error.inj h
      exact applyRuleToFile_err_inv happ
    | ok st2 =>
      rw [happ] at h
      simp only at h
      exact runFiles_err_inv h

theorem runRules_err_inv
    (parse : String → Except String AiV2.Expression)
    (eval : AiV2.Expression → AiV2.VirtualFile → Except String Bool)
    (root : String) (files : List (String × AiV2.VirtualFile)) :
    ∀ (l : List AiV2.OrganizationRule) (st : AiV2.RuleRunState)
      {m : String} {st' : AiV2.RuleRunState},
      (∀ r ∈ l, (parse r.condition).isOk = true) →
      AiV2.runRules parse eval root files l st = Except.error (m, st') →
      st'.operations.length > AiV2.MAX_OPERATIONS ∧
      m = AiV2.limitExceededMsg st'.operations.length
  | [], _, _, _, _, h => absurd h (by simp [AiV2.runRules])
  | rule :: rest, st, m, st', hall, h => by
    cases hp : parse rule.condition with
    | error e =>
      have := hall rule (List.mem_cons_self _ _)
      rw [hp] at this
      simp [Except.isOk, Except.toBool] at this
    | ok expr =>
      rw [AiV2.runRules, hp] at h
      simp only at h
      cases hrf : AiV2.runFiles root files rule
          ((AiV2.filesOf files).filter (fun f =>
            !(st.processed_files.contains f.path) &&
            (match eval expr f with
             | Except.ok b => b
             | Except.error _ => false))) st with
      | error e2 =>
        rw [hrf] at h
        simp only at h
        obtain rfl : e2 = (m, st') := Except.error.inj h
        exact runFiles_err_inv hrf
      | ok st2 =>
        rw [hrf] at h
        simp only at h
        exact runRules_err_inv parse eval root files rest st2
          (fun r hr => hall r (List.mem_cons_of_mem _ hr)) h

/-- C5 (amended): when every rule's condition parses, an error from
`apply_rules` is the operation-limit error; it fires once the planned list
exceeds the cap, and the failed call retains partial state — the
operations appended before the failure (more than 5000 of them) stay on
the VFS, with the error message reporting that length. -/
theorem apply_rules_limit_error_keeps_partial_state
    (parse : String → Except String AiV2.Expression)
    (eval : AiV2.Expression → AiV2.VirtualFile → Except String Bool)
    (vfs : AiV2.ShadowVFS) (rules : List AiV2.OrganizationRule)
    (mode : String) (msg : String) (vfs' : AiV2.ShadowVFS)
    (hall : ∀ r ∈ rules, (parse r.condition).isOk = true)
    (h : AiV2.applyRules parse eval vfs rules mode =
      (Except.error msg, vfs')) :
    vfs'.operations.length > AiV2.MAX_OPERATIONS ∧
    msg = AiV2.limitExceededMsg vfs'.operations.length := by
  simp only [AiV2.applyRules] at h
  cases hrun : AiV2.runRules parse eval vfs.root vfs.files
      (List.insertionSort
        (fun a b => (b.priority.getD 0) ≤ (a.priority.getD 0)) rules)
      ⟨(if mode == "replace" then [] else vfs.operations),
        vfs.op_counter, [], [], 0⟩ with
  | error e =>
    rw [hrun] at h
    simp only [Prod.mk.injEq] at h
    obtain ⟨hmsg, hvfs⟩ := h
    have hinv := runRules_err_inv parse eval vfs.root vfs.files _ _
      (fun r hr => hall r
        ((List.perm_insertionSort
          (fun a b => (b.priority.getD 0) ≤ (a.priority.getD 0))
          rules).mem_iff.mp hr))
      hrun
    have hops : vfs'.operations = e.2.operations := by
      rw [← hvfs]
    rw [hops]
    have hm2 : e.1 = msg := Except.error.inj hmsg
    exact ⟨hinv.1, by rw [← hm2]; exact hinv.2⟩
  | ok st =>
    rw [hrun] at h
    simp at h

namespace AiV2

/-- The move operation that `ruleGood` emits for `/root/a.pdf` as the
first operation of a call. -/
def moveOp1 : PlannedOperation :=
  { op_id := "op-1"
    op_type := OperationType.Move
    source := some "/root/a.pdf"
    destination := some "/root/Docs/a.pdf"
    path := none
    new_name := none
    rule_name := some "good" }

end AiV2

/-- Running `ruleGood` in append mode over any VFS already holding 5000
planned operations pushes the 5001st operation and fails with the
operation-limit error, retaining the appended operation. -/
theorem applyRules_cap_run (ops0 : List AiV2.PlannedOperation)
    (hlen : ops0.length = 5000) :
    AiV2.applyRules AiV2.parseCE AiV2.evalCE
      ⟨"/root", [("/root/a.pdf", AiV2.exPdf)], ops0, 0⟩
      [AiV2.ruleGood] "append" =
      (Except.error (AiV2.limitExceededMsg 5001),
       ⟨"/root", [("/root/a.pdf", AiV2.exPdf)], ops0 ++ [AiV2.moveOp1],
        1⟩) := by
  have hcap : (ops0 ++ [AiV2.moveOp1]).length = 5001 := by
    rw [List.length_append, hlen]
    rfl
  simp [AiV2.applyRules, AiV2.runRules, AiV2.runFiles,
    AiV2.applyRuleToFile, AiV2.parseCE, AiV2.evalCE, AiV2.ruleGood,
    AiV2.exPdf, AiV2.filesOf, AiV2.insertStr, AiV2.strStartsWith,
    AiV2.containsKeyStr, AiV2.fileNameOf, AiV2.lastSegment,
    AiV2.moveOp1, hcap, hlen, AiV2.MAX_OPERATIONS,
    List.insertionSort, List.orderedInsert]
  rfl

/-- C5 counterexample: with 5000 operations already planned, one more
matching file makes `apply_rules` fail with the operation-limit error —
but partial state is left behind: the failed call's VFS holds 5001
operations, not the 5000 it held before the call. -/
theorem op_cap_leaves_partial_state :
    (AiV2.applyRules AiV2.parseCE AiV2.evalCE AiV2.bigVfs
      [AiV2.ruleGood] "append").1 =
      Except.error (AiV2.limitExceededMsg 5001) ∧
    ((AiV2.applyRules AiV2.parseCE AiV2.evalCE AiV2.bigVfs
      [AiV2.ruleGood] "append").2).operations.length = 5001 ∧
    AiV2.bigVfs.operations.length = 5000 := by
  have hlen : (List.replicate 5000 AiV2.dummyOp).length = 5000 := by
    rw [List.length_replicate]
  have hrun := applyRules_cap_run (List.replicate 5000 AiV2.dummyOp) hlen
  have hbig : AiV2.bigVfs =
      ⟨"/root", [("/root/a.pdf", AiV2.exPdf)],
        List.replicate 5000 AiV2.dummyOp, 0⟩ := rfl
  rw [hbig, hrun]
  refine ⟨rfl, ?_, hlen⟩
  show (List.replicate 5000 AiV2.dummyOp ++ [AiV2.moveOp1]).length = 5001
  rw [List.length_append, List.length_replicate]
  rfl

/-- Concrete instantiation of
`apply_rules_limit_error_keeps_partial_state` on the 5000-operation
scenario. -/
theorem apply_rules_limit_error_witness :
    ((AiV2.applyRules AiV2.parseCE AiV2.evalCE AiV2.bigVfs
      [AiV2.ruleGood] "append").2).operations.length >
      AiV2.MAX_OPERATIONS := by
  have hlen : (List.replicate 5000 AiV2.dummyOp).length = 5000 := by
    rw [List.length_replicate]
  have hrun := applyRules_cap_run (List.replicate 5000 AiV2.dummyOp) hlen
  have hbig : AiV2.bigVfs =
      ⟨"/root", [("/root/a.pdf", AiV2.exPdf)],
        List.replicate 5000 AiV2.dummyOp, 0⟩ := rfl
  have h := apply_rules_limit_error_keeps_partial_state
    AiV2.parseCE AiV2.evalCE AiV2.bigVfs [AiV2.ruleGood] "append"
    (AiV2.limitExceededMsg 5001)
    ⟨"/root", [("/root/a.pdf", AiV2.exPdf)],
      List.replicate 5000 AiV2.dummyOp ++ [AiV2.moveOp1], 1⟩
    (by decide) (by rw [hbig]; exact hrun)
  rw [hbig, hrun]
  exact h.1

namespace Wal

/-- Modelled from the spec: `wal/entry.rs::WALStatus` (the file is absent
from the source tree; spec §3 lists these five states). -/
inductive WALStatus where
  | Pending
  | InProgress
  | Completed
  | Failed
  | Skipped
deriving DecidableEq, Repr

/-- Modelled from the spec: `wal/entry.rs::WALEntry` (spec §3).  The UUID
is an abstract identifier (`Nat`); timestamps are epoch milliseconds. -/
structure WALEntry where
  id : Nat
  sequence : Nat
  operation : Execution.WALOperationType
  status : WALStatus
  created_at : Int
  started_at : Option Int
  completed_at : Option Int
  error : Option String
  depends_on : List Nat
deriving DecidableEq, Repr

end Wal

namespace Executor

/-- Embedding of `execution/executor.rs::ExecutionResult`. -/
structure ExecutionResult where
  completed_count : Nat
  failed_count : Nat
  errors : List String
  success : Bool
deriving DecidableEq, Repr

/-- Embedding of `ExecutionResult::partial` (named `partialResult` here;
the source method name collides with a reserved word): `success` is
`failed == 0`. -/
def ExecutionResult.partialResult (completed failed : Nat)
    (errors : List String) : ExecutionResult :=
  ⟨completed, failed, errors, failed == 0⟩

/-- Embedding of `ExecutionEngine::execute_level`.  The level's entries
run as parallel tasks; the embedding collapses scheduling to an outcome
oracle (`execute_operation` per entry) and aggregates the completion
counter, the failure counter and the error messages; message order, which
depends on task completion order, is modelled as entry order.  The WAL
status persistence done per entry does not affect the returned triple and
is not modelled. -/
def execute_level (outcome : Wal.WALEntry → Except String Unit) :
    List Wal.WALEntry → Nat × Nat × List String
  | [] => (0, 0, [])
  | e :: rest =>
    let r := execute_level outcome rest
    match outcome e with
    | Except.ok _ => (r.1 + 1, r.2.1, r.2.2)
    | Except.error msg => (r.1, r.2.1 + 1, msg :: r.2.2)

/-- Embedding of the level loop of `ExecutionEngine::execute_dag`: the
accumulators are `total_completed`, `total_failed` and `all_errors`; the
extra `disp` component records every entry handed to `execute_level`, to
express which operations the run started.  A failed level breaks the
loop. -/
def execute_dag_aux (outcome : Wal.WALEntry → Except String Unit) :
    List (List Wal.WALEntry) → Nat → Nat → List String →
    List Wal.WALEntry → ExecutionResult × List Wal.WALEntry
  | [], c, f, errs, disp => (ExecutionResult.partialResult c f errs, disp)
  | level :: rest, c, f, errs, disp =>
    let r := execute_level outcome level
    if r.2.1 > 0 then
      (ExecutionResult.partialResult (c + r.1) (f + r.2.1) (errs ++ r.2.2),
        disp ++ level)
    else
      execute_dag_aux outcome rest (c + r.1) (f + r.2.1) (errs ++ r.2.2)
        (disp ++ level)

/-- Embedding of `ExecutionEngine::execute_dag` over the level sets. -/
def execute_dag (outcome : Wal.WALEntry → Except String Unit)
    (levels : List (List Wal.WALEntry)) :
    ExecutionResult × List Wal.WALEntry :=
  execute_dag_aux outcome levels 0 0 [] []

/-- Whether some entry of a level fails under the outcome oracle. -/
def levelFailed (outcome : Wal.WALEntry → Except String Unit)
    (level : List Wal.WALEntry) : Bool :=
  level.any (fun e => match outcome e with
    | Except.error _ => true
    | Except.ok _ => false)

/-- Number of successful entries of a list under the oracle. -/
def countOk (outcome : Wal.WALEntry → Except String Unit)
    (l : List Wal.WALEntry) : Nat :=
  (l.filter (fun e => match outcome e with
    | Except.ok _ => true
    | Except.error _ => false)).length

/-- Number of failing entries of a list under the oracle. -/
def countErr (outcome : Wal.WALEntry → Except String Unit)
    (l : List Wal.WALEntry) : Nat :=
  (l.filter (fun e => match outcome e with
    | Except.error _ => true
    | Except.ok _ => false)).length

/-- Error messages of the failing entries, in entry order. -/
def errMsgs (outcome : Wal.WALEntry → Except String Unit)
    (l : List Wal.WALEntry) : List String :=
  l.filterMap (fun e => match outcome e with
    | Except.error m => some m
    | Except.ok _ => none)

theorem execute_level_eq (outcome : Wal.WALEntry → Except String Unit) :
    ∀ l : List Wal.WALEntry,
      execute_level outcome l =
        (countOk outcome l, countErr outcome l, errMsgs outcome l)
  | [] => rfl
  | e :: rest => by
    rw [execute_level, execute_level_eq outcome rest]
    cases h : outcome e with
    | ok u =>
      simp [countOk, countErr, errMsgs, List.filter_cons, h,
        List.filterMap_cons]
    | error m =>
      simp [countOk, countErr, errMsgs, List.filter_cons, h,
        List.filterMap_cons]

theorem countOk_append (outcome : Wal.WALEntry → Except String Unit)
    (a b : List Wal.WALEntry) :
    countOk outcome (a ++ b) = countOk outcome a + countOk outcome b := by
  simp [countOk, List.filter_append]

theorem countErr_append (outcome : Wal.WALEntry → Except String Unit)
    (a b : List Wal.WALEntry) :
    countErr outcome (a ++ b) = countErr outcome a + countErr outcome b := by
  simp [countErr, List.filter_append]

theorem errMsgs_append (outcome : Wal.WALEntry → Except String Unit)
    (a b : List Wal.WALEntry) :
    errMsgs outcome (a ++ b) = errMsgs outcome a ++ errMsgs outcome b := by
  simp [errMsgs, List.filterMap_append]

theorem levelFailed_iff_countErr (outcome : Wal.WALEntry → Except String Unit)
    (l : List Wal.WALEntry) :
    levelFailed outcome l = true ↔ 0 < countErr outcome l := by
  induction l with
  | nil => simp [levelFailed, countErr]
  | cons e rest ih =>
    simp only [levelFailed, List.any_cons, countErr,
      List.filter_cons] at ih ⊢
    cases ho : outcome e with
    | ok u => simpa [ho] using ih
    | error m => simp [ho]

theorem errMsgs_nil_of_not_failed
    (outcome : Wal.WALEntry → Except String Unit)
    (l : List Wal.WALEntry) (h : levelFailed outcome l = false) :
    errMsgs outcome l = [] := by
  induction l with
  | nil => rfl
  | cons e rest ih =>
    simp only [levelFailed, List.any_cons, Bool.or_eq_false_iff] at h
    simp only [errMsgs, List.filterMap_cons]
    cases ho : outcome e with
    | ok u =>
      simp only
      exact ih (by simpa [levelFailed] using h.2)
    | error m =>
      rw [ho] at h
      exact absurd h.1 (by simp)

theorem execute_dag_aux_spec (outcome : Wal.WALEntry → Except String Unit) :
    ∀ (levels : List (List Wal.WALEntry)) (k : Nat)
      (lvl : List Wal.WALEntry) (c f : Nat) (errs : List String)
      (disp : List Wal.WALEntry),
      levels.get? k = some lvl → levelFailed outcome lvl = true →
      (∀ j lvl', j < k → levels.get? j = some lvl' →
        levelFailed outcome lvl' = false) →
      execute_dag_aux outcome levels c f errs disp =
        (ExecutionResult.partialResult
          (c + countOk outcome ((levels.take (k + 1)).flatten))
          (f + countErr outcome ((levels.take (k + 1)).flatten))
          (errs ++ errMsgs outcome ((levels.take (k + 1)).flatten)),
         disp ++ (levels.take (k + 1)).flatten)
  | [], k, lvl, _, _, _, _, hk, _, _ => by simp at hk
  | level :: rest, 0, lvl, c, f, errs, disp, hk, hfail, _ => by
    obtain rfl : level = lvl := by simpa using hk
    rw [execute_dag_aux, execute_level_eq]
    simp only
    rw [if_pos (by simpa using (levelFailed_iff_countErr outcome level).mp hfail)]
    rw [List.take_succ_cons, List.take_zero, List.flatten_cons,
      List.flatten_nil, List.append_nil]
  | level :: rest, j + 1, lvl, c, f, errs, disp, hk, hfail, hprev => by
    have hk2 : rest.get? j = some lvl := by simpa using hk
    have hl0 : levelFailed outcome level = false :=
      hprev 0 level (Nat.succ_pos j) rfl
    have hcerr0 : countErr outcome level = 0 := by
      by_contra hne
      exact absurd ((levelFailed_iff_countErr outcome level).mpr
        (Nat.pos_of_ne_zero hne)) (by simp [hl0])
    have hmsg0 : errMsgs outcome level = [] :=
      errMsgs_nil_of_not_failed outcome level hl0
    rw [execute_dag_aux, execute_level_eq]
    simp only
    rw [if_neg (by simp [hcerr0])]
    rw [execute_dag_aux_spec outcome rest j lvl (c + countOk outcome level)
      (f + countErr outcome level) (errs ++ errMsgs outcome level)
      (disp ++ level) hk2 hfail
      (fun i lvl' hi hget => hprev (i + 1) lvl' (Nat.succ_lt_succ hi)
        (by simpa using hget))]
    rw [List.take_succ_cons, List.flatten_cons]
    rw [countOk_append, countErr_append, errMsgs_append, hcerr0, hmsg0]
    simp [Nat.add_assoc]

end Executor

/-- C8: if some operation in a level fails (and every earlier level is
clean), the executor starts exactly the levels up to and including that
one — no subsequent level is started — and the run's partial result
carries the completed count, the failed count and the error messages of
the dispatched operations, with `success = false` since the failed count
is nonzero. -/
theorem executor_stops_after_failed_level
    (outcome : Wal.WALEntry → Except String Unit)
    (levels : List (List Wal.WALEntry)) (k : Nat)
    (lvl : List Wal.WALEntry)
    (hk : levels.get? k = some lvl)
    (hfail : Executor.levelFailed outcome lvl = true)
    (hfirst : ∀ j lvl', j < k → levels.get? j = some lvl' →
      Executor.levelFailed outcome lvl' = false) :
    (Executor.execute_dag outcome levels).2 =
      ((levels.take (k + 1)).flatten) ∧
    (Executor.execute_dag outcome levels).1.completed_count =
      Executor.countOk outcome (Executor.execute_dag outcome levels).2 ∧
    (Executor.execute_dag outcome levels).1.failed_count =
      Executor.countErr outcome (Executor.execute_dag outcome levels).2 ∧
    (Executor.execute_dag outcome levels).1.errors =
      Executor.errMsgs outcome (Executor.execute_dag outcome levels).2 ∧
    (Executor.execute_dag outcome levels).1.failed_count ≠ 0 ∧
    (Executor.execute_dag outcome levels).1.success = false := by
  have hspec := Executor.execute_dag_aux_spec outcome levels k lvl 0 0 [] []
    hk hfail hfirst
  have hJpos : 0 < Executor.countErr outcome
      ((levels.take (k + 1)).flatten) := by
    obtain ⟨e, he, hp⟩ := List.any_eq_true.mp hfail
    have hlmem : lvl ∈ levels.take (k + 1) := by
      have h2 : (levels.take (k + 1)).get? k = some lvl := by
        rw [List.get?_take (Nat.lt_succ_self k)]
        exact hk
      exact List.get?_mem h2
    have hmemJ : e ∈ (levels.take (k + 1)).flatten :=
      List.mem_flatten.mpr ⟨lvl, hlmem, he⟩
    exact (Executor.levelFailed_iff_countErr outcome _).mp
      (List.any_eq_true.mpr ⟨e, hmemJ, hp⟩)
  rw [Executor.execute_dag, hspec]
  simp only [Executor.ExecutionResult.partialResult, Nat.zero_add,
    List.nil_append]
  refine ⟨by trivial, by trivial, by trivial, by trivial,
    Nat.pos_iff_ne_zero.mp hJpos, by simp [Nat.pos_iff_ne_zero.mp hJpos]⟩

namespace Executor

/-- Example entry 1: a folder creation that succeeds. -/
def entOk : Wal.WALEntry :=
  ⟨1, 0, Execution.WALOperationType.CreateFolder ⟨true, ["t", "a"]⟩,
    Wal.WALStatus.Pending, 0, none, none, none, []⟩

/-- Example entry 2: the failing operation (depends on entry 1). -/
def entBad : Wal.WALEntry :=
  ⟨2, 1, Execution.WALOperationType.CreateFolder ⟨true, ["t", "b"]⟩,
    Wal.WALStatus.Pending, 0, none, none, none, [1]⟩

/-- Example entry 3: an operation in the level after the failure. -/
def entAfter : Wal.WALEntry :=
  ⟨3, 2, Execution.WALOperationType.CreateFolder ⟨true, ["t", "c"]⟩,
    Wal.WALStatus.Pending, 0, none, none, none, [2]⟩

/-- Example outcome oracle: entry 2 fails, everything else succeeds. -/
def exOutcome : Wal.WALEntry → Except String Unit := fun e =>
  if e.id = 2 then Except.error "boom" else Except.ok ()

/-- Example level sets: three singleton levels, failure in the middle. -/
def exLevels : List (List Wal.WALEntry) := [[entOk], [entBad], [entAfter]]

end Executor

/-- Concrete instantiation of `executor_stops_after_failed_level`: with
the failure in level 1, only levels 0 and 1 are dispatched. -/
theorem executor_stops_after_failed_level_witness :
    (Executor.execute_dag Executor.exOutcome Executor.exLevels).2 =
      ((Executor.exLevels.take 2).flatten) ∧
    (Executor.execute_dag Executor.exOutcome
      Executor.exLevels).1.completed_count =
      Executor.countOk Executor.exOutcome
        (Executor.execute_dag Executor.exOutcome Executor.exLevels).2 ∧
    (Executor.execute_dag Executor.exOutcome
      Executor.exLevels).1.failed_count =
      Executor.countErr Executor.exOutcome
        (Executor.execute_dag Executor.exOutcome Executor.exLevels).2 ∧
    (Executor.execute_dag Executor.exOutcome Executor.exLevels).1.errors =
      Executor.errMsgs Executor.exOutcome
        (Executor.execute_dag Executor.exOutcome Executor.exLevels).2 ∧
    (Executor.execute_dag Executor.exOutcome
      Executor.exLevels).1.failed_count ≠ 0 ∧
    (Executor.execute_dag Executor.exOutcome
      Executor.exLevels).1.success = false :=
  executor_stops_after_failed_level Executor.exOutcome Executor.exLevels 1
    [Executor.entBad] rfl (by decide)
    (fun j lvl' hj hget => by
      have hj0 : j = 0 := Nat.lt_one_iff.mp hj
      subst hj0
      obtain rfl : [Executor.entOk] = lvl' := by
        simpa [Executor.exLevels] using hget
      decide)

namespace Dag

/-- Embedding of `execution/dag.rs::DAGError`.  The `Uuid` payload is the
abstract entry identifier. -/
inductive DAGError where
  | CycleDetected
  | DependencyNotFound (id : Nat)
  | EmptyGraph
deriving DecidableEq, Repr

/-- Model of the `id_to_index: HashMap<Uuid, NodeIndex>` built by the
first pass of `from_entries`: insertion over the enumerated entries, a
later duplicate id overwriting an earlier one, hence the binding of an id
is its last occurrence. -/
def idToIndex (entries : List Wal.WALEntry) (id : Nat) : Option Nat :=
  (entries.enum.reverse.find? (fun p => p.2.id = id)).map (·.1)

/-- Edges contributed by one entry's `depends_on` list (edge direction
`dep → dependent`); a missing dependency aborts the build. -/
def depEdges (entries : List Wal.WALEntry) (selfIdx : Nat) :
    List Nat → Except DAGError (List (Nat × Nat))
  | [] => Except.ok []
  | d :: ds =>
    match idToIndex entries d with
    | none => Except.error (DAGError.DependencyNotFound d)
    | some di =>
      match depEdges entries selfIdx ds with
      | Except.error e => Except.error e
      | Except.ok rest => Except.ok ((di, selfIdx) :: rest)

/-- Second pass of `ExecutionDAG::from_entries` over the enumerated
entries; each entry's edges target the map's binding of its own id
(`id_to_index[&entry.id]`, always present). -/
def buildEdgesAux (entries : List Wal.WALEntry) :
    List (Nat × Wal.WALEntry) → Except DAGError (List (Nat × Nat))
  | [] => Except.ok []
  | p :: rest =>
    match depEdges entries ((idToIndex entries p.2.id).getD 0)
        p.2.depends_on with
    | Except.error e => Except.error e
    | Except.ok es =>
      match buildEdgesAux entries rest with
      | Except.error e => Except.error e
      | Except.ok esr => Except.ok (es ++ esr)

/-- Dependency edges of the whole entry list. -/
def buildEdges (entries : List Wal.WALEntry) :
    Except DAGError (List (Nat × Nat)) :=
  buildEdgesAux entries entries.enum

/-- Whether `v` has no incoming edge from a remaining node — the
candidate condition of Kahn's algorithm. -/
def noIncoming (edges : List (Nat × Nat)) (remaining : List Nat)
    (v : Nat) : Bool :=
  !(edges.any (fun e => e.2 = v && e.1 ∈ remaining))

/-- Worker for `toposort`; the fuel (initially the node count) bounds the
recursion, and each step removes the picked node. -/
def toposortAux (edges : List (Nat × Nat)) :
    Nat → List Nat → Option (List Nat)
  | 0, remaining => if remaining.isEmpty then some [] else none
  | fuel + 1, remaining =>
    match remaining.find? (noIncoming edges remaining) with
    | none => if remaining.isEmpty then some [] else none
    | some v =>
      (toposortAux edges fuel (remaining.erase v)).map (fun l => v :: l)

/-- Model of `petgraph::algo::toposort` (an external library function) by
its contract: on an acyclic graph it returns an order of all nodes in
which every edge's source precedes its target; on a cyclic graph it
fails.  Implemented as Kahn's algorithm over the node indices. -/
def toposort (edges : List (Nat × Nat)) (n : Nat) : Option (List Nat) :=
  toposortAux edges n (List.range n)

/-- Incoming neighbours of `v` (`neighbors_directed(v, Incoming)`): the
sources of the edges targeting `v`, one per edge. -/
def predsOf (edges : List (Nat × Nat)) (v : Nat) : List Nat :=
  edges.filterMap (fun e => if e.2 = v then some e.1 else none)

/-- The level `compute_levels` assigns to one node: 0 without incoming
edges, otherwise one more than the maximum of the neighbours' recorded
levels (`unwrap_or(0)`). -/
def lvlOf (m : Nat → Option Nat) (preds : List Nat) : Nat :=
  match preds with
  | [] => 0
  | _ => 1 + preds.foldl (fun acc p => max acc ((m p).getD 0)) 0

/-- The `for node_idx in sorted` assignment loop of `compute_levels`,
threading the `node_levels` map. -/
def assignLevels (edges : List (Nat × Nat)) :
    List Nat → (Nat → Option Nat) → (Nat → Option Nat)
  | [], m => m
  | v :: rest, m =>
    assignLevels edges rest
      (fun x => if x = v then some (lvlOf m (predsOf edges v)) else m x)

/-- The `node_levels` map after the assignment loop. -/
def nodeLevels (edges : List (Nat × Nat)) (ord : List Nat) :
    Nat → Option Nat :=
  assignLevels edges ord (fun _ => none)

/-- Grouping of the nodes by level (`levels[level].push(node_idx)`), the
group count being one more than the maximum level.  `HashMap` iteration
order is unspecified in the source; membership in each group is what the
embedding models, listing nodes in topological order. -/
def levelSets (m : Nat → Option Nat) (ord : List Nat) :
    List (List Nat) :=
  let maxLevel := ord.foldl (fun acc v => max acc ((m v).getD 0)) 0
  (List.range (maxLevel + 1)).map
    (fun k => ord.filter (fun v => (m v).getD 0 = k))

/-- Embedding of `execution/dag.rs::ExecutionDAG`: the node weights (the
entries, indexed by position), the dependency edges, and the computed
level groups of node indices. -/
structure ExecutionDAG where
  entries : List Wal.WALEntry
  edges : List (Nat × Nat)
  levels : List (List Nat)
deriving Repr

/-- Embedding of `ExecutionDAG::from_entries`: reject an empty list, add
the edges (failing on a missing dependency), check acyclicity by
topological sort, then compute the levels. -/
def from_entries (entries : List Wal.WALEntry) :
    Except DAGError ExecutionDAG :=
  if entries.isEmpty then Except.error DAGError.EmptyGraph
  else
    match buildEdges entries with
    | Except.error e => Except.error e
    | Except.ok edges =>
      match toposort edges entries.length with
      | none => Except.error DAGError.CycleDetected
      | some ord =>
        Except.ok ⟨entries, edges, levelSets (nodeLevels edges ord) ord⟩

/-- Embedding of `ExecutionDAG::get_levels`: each level's node indices
resolved to entries (`filter_map(node_weight)`). -/
def get_levels (dag : ExecutionDAG) : List (List Wal.WALEntry) :=
  dag.levels.map (fun level => level.filterMap (fun i => dag.entries[i]?))

/-- Embedding of `ExecutionDAG::topological_order`: re-runs the sort and
resolves the indices (an error yields the empty list). -/
def topological_order (dag : ExecutionDAG) : List Wal.WALEntry :=
  match toposort dag.edges dag.entries.length with
  | some sorted => sorted.filterMap (fun i => dag.entries[i]?)
  | none => []

end Dag

namespace Dag

theorem toposortAux_perm (edges : List (Nat × Nat)) :
    ∀ (fuel : Nat) (rem ord : List Nat),
      toposortAux edges fuel rem = some ord → ord.Perm rem
  | 0, rem, ord, h => by
    by_cases hemp : rem.isEmpty = true
    · rw [toposortAux, if_pos hemp] at h
      cases h
      simp [List.isEmpty_iff.mp hemp]
    · rw [toposortAux, if_neg hemp] at h
      exact Option.noConfusion h
  | fuel + 1, rem, ord, h => by
    rw [toposortAux] at h
    cases hfind : rem.find? (noIncoming edges rem) with
    | none =>
      simp only [hfind] at h
      by_cases hemp : rem.isEmpty = true
      · rw [if_pos hemp] at h
        cases h
        simp [List.isEmpty_iff.mp hemp]
      · rw [if_neg hemp] at h
        exact Option.noConfusion h
    | some v =>
      simp only [hfind, Option.map_eq_some'] at h
      obtain ⟨ord2, hrec, rfl⟩ := h
      have hv : v ∈ rem := List.mem_of_find?_eq_some hfind
      exact ((toposortAux_perm edges fuel _ ord2 hrec).cons v).trans
        (List.perm_cons_erase hv).symm

theorem toposortAux_before (edges : List (Nat × Nat)) :
    ∀ (fuel : Nat) (rem ord : List Nat),
      toposortAux edges fuel rem = some ord →
      ∀ u v : Nat, (u, v) ∈ edges → u ∈ rem → v ∈ rem →
        ∃ l1 l2, ord = l1 ++ u :: l2 ∧ v ∈ l2
  | 0, rem, ord, h, u, v, _, hu, _ => by
    by_cases hemp : rem.isEmpty = true
    · rw [List.isEmpty_iff.mp hemp] at hu
      exact absurd hu (List.not_mem_nil u)
    · rw [toposortAux, if_neg hemp] at h
      exact Option.noConfusion h
  | fuel + 1, rem, ord, h, u, v, he, hu, hv => by
    rw [toposortAux] at h
    cases hfind : rem.find? (noIncoming edges rem) with
    | none =>
      simp only [hfind] at h
      by_cases hemp : rem.isEmpty = true
      · rw [List.isEmpty_iff.mp hemp] at hu
        exact absurd hu (List.not_mem_nil u)
      · rw [if_neg hemp] at h
        exact Option.noConfusion h
    | some w =>
      simp only [hfind, Option.map_eq_some'] at h
      obtain ⟨ord2, hrec, rfl⟩ := h
      have hwni : ∀ a b : Nat, (a, b) ∈ edges → b = w → a ∉ rem := by
        have h0 := List.find?_some hfind
        simp only [noIncoming, Bool.not_eq_true', List.any_eq_false] at h0
        intro a b hab hbw ha
        have h1 := h0 (a, b) hab
        simp [hbw, ha] at h1
      have hvw : v ≠ w := fun hvw => hwni u v he hvw hu
      by_cases huw : u = w
      · subst huw
        have hv2 : v ∈ rem.erase u := (List.mem_erase_of_ne hvw).mpr hv
        have hvord : v ∈ ord2 :=
          (toposortAux_perm edges fuel _ ord2 hrec).mem_iff.mpr hv2
        exact ⟨[], ord2, rfl, hvord⟩
      · have hu2 : u ∈ rem.erase w := (List.mem_erase_of_ne huw).mpr hu
        have hv2 : v ∈ rem.erase w := (List.mem_erase_of_ne hvw).mpr hv
        obtain ⟨l1, l2, hord, hvl2⟩ := toposortAux_before edges fuel
          (rem.erase w) ord2 hrec u v he hu2 hv2
        exact ⟨w :: l1, l2, by rw [hord, List.cons_append], hvl2⟩

theorem toposort_perm_range {edges : List (Nat × Nat)} {n : Nat}
    {ord : List Nat} (h : toposort edges n = some ord) :
    ord.Perm (List.range n) :=
  toposortAux_perm edges n _ ord h

theorem toposort_before {edges : List (Nat × Nat)} {n : Nat}
    {ord : List Nat} (h : toposort edges n = some ord)
    {u v : Nat} (he : (u, v) ∈ edges) (hu : u < n) (hv : v < n) :
    ∃ l1 l2, ord = l1 ++ u :: l2 ∧ v ∈ l2 :=
  toposortAux_before edges n _ ord h u v he
    (List.mem_range.mpr hu) (List.mem_range.mpr hv)

end Dag

namespace Dag

theorem assignLevels_append (edges : List (Nat × Nat)) :
    ∀ (l1 l2 : List Nat) (m : Nat → Option Nat),
      assignLevels edges (l1 ++ l2) m =
        assignLevels edges l2 (assignLevels edges l1 m)
  | [], _, _ => rfl
  | _ :: l1, l2, m => by
    rw [List.cons_append, assignLevels, assignLevels]
    exact assignLevels_append edges l1 l2 _

theorem assignLevels_not_mem (edges : List (Nat × Nat)) :
    ∀ (l : List Nat) (m : Nat → Option Nat) (x : Nat), x ∉ l →
      assignLevels edges l m x = m x
  | [], _, _, _ => rfl
  | v :: l, m, x, hx => by
    rw [assignLevels,
      assignLevels_not_mem edges l _ x (fun h => hx (List.mem_cons_of_mem v h))]
    have hxv : ¬ x = v := fun h => hx (by rw [h]; exact List.mem_cons_self v l)
    rw [if_neg hxv]

theorem foldl_max_init (f : Nat → Nat) :
    ∀ (l : List Nat) (init : Nat),
      init ≤ l.foldl (fun acc p => max acc (f p)) init
  | [], _ => le_refl _
  | v :: l, init => by
    rw [List.foldl_cons]
    calc init ≤ max init (f v) := le_max_left _ _
      _ ≤ _ := foldl_max_init f l _

theorem foldl_max_le (f : Nat → Nat) :
    ∀ (l : List Nat) (init x : Nat), x ∈ l →
      f x ≤ l.foldl (fun acc p => max acc (f p)) init
  | [], _, x, hx => absurd hx (List.not_mem_nil x)
  | v :: l, init, x, hx => by
    rw [List.foldl_cons]
    rcases List.mem_cons.mp hx with h | h
    · subst h
      calc f x ≤ max init (f x) := le_max_right _ _
        _ ≤ _ := foldl_max_init f l (max init (f x))
    · exact foldl_max_le f l _ x h

theorem foldl_max_cases (f : Nat → Nat) :
    ∀ (l : List Nat) (init : Nat),
      l.foldl (fun acc p => max acc (f p)) init = init ∨
        ∃ x ∈ l, l.foldl (fun acc p => max acc (f p)) init = f x
  | [], _ => Or.inl rfl
  | v :: l, init => by
    rw [List.foldl_cons]
    rcases Nat.le_total (f v) init with hle | hle
    · rw [Nat.max_eq_left hle]
      rcases foldl_max_cases f l init with h | ⟨x, hx, h⟩
      · exact Or.inl h
      · exact Or.inr ⟨x, List.mem_cons_of_mem v hx, h⟩
    · rw [Nat.max_eq_right hle]
      rcases foldl_max_cases f l (f v) with h | ⟨x, hx, h⟩
      · exact Or.inr ⟨v, List.mem_cons_self v l, h⟩
      · exact Or.inr ⟨x, List.mem_cons_of_mem v hx, h⟩

theorem foldl_max_attained (f : Nat → Nat) (l : List Nat) (hne : l ≠ []) :
    ∃ x ∈ l, l.foldl (fun acc p => max acc (f p)) 0 = f x := by
  rcases foldl_max_cases f l 0 with h | h
  · obtain ⟨x, hx⟩ := List.exists_mem_of_ne_nil l hne
    have h1 : f x ≤ 0 := h ▸ foldl_max_le f l 0 x hx
    exact ⟨x, hx, by rw [h, Nat.eq_zero_of_le_zero h1]⟩
  · exact h

end Dag

namespace Dag

theorem toposortAux_decomp (edges : List (Nat × Nat)) :
    ∀ (fuel : Nat) (rem ord : List Nat),
      toposortAux edges fuel rem = some ord →
      ∀ v : Nat, v ∈ rem →
        ∃ a1 a2, ord = a1 ++ v :: a2 ∧
          ∀ u : Nat, (u, v) ∈ edges → u ∈ rem → u ∈ a1
  | 0, rem, ord, h, v, hv => by
    by_cases hemp : rem.isEmpty = true
    · rw [List.isEmpty_iff.mp hemp] at hv
      exact absurd hv (List.not_mem_nil v)
    · rw [toposortAux, if_neg hemp] at h
      exact Option.noConfusion h
  | fuel + 1, rem, ord, h, v, hv => by
    rw [toposortAux] at h
    cases hfind : rem.find? (noIncoming edges rem) with
    | none =>
      simp only [hfind] at h
      by_cases hemp : rem.isEmpty = true
      · rw [List.isEmpty_iff.mp hemp] at hv
        exact absurd hv (List.not_mem_nil v)
      · rw [if_neg hemp] at h
        exact Option.noConfusion h
    | some w =>
      simp only [hfind, Option.map_eq_some'] at h
      obtain ⟨ord2, hrec, rfl⟩ := h
      have hwni : ∀ a b : Nat, (a, b) ∈ edges → b = w → a ∉ rem := by
        have h0 := List.find?_some hfind
        simp only [noIncoming, Bool.not_eq_true', List.any_eq_false] at h0
        intro a b hab hbw ha
        have h1 := h0 (a, b) hab
        simp [hbw, ha] at h1
      by_cases hvw : v = w
      · subst hvw
        refine ⟨[], ord2, rfl, ?_⟩
        intro u hu hur
        exact absurd hur (hwni u v hu rfl)
      · have hv2 : v ∈ rem.erase w := (List.mem_erase_of_ne hvw).mpr hv
        obtain ⟨a1, a2, hord, hpred⟩ :=
          toposortAux_decomp edges fuel (rem.erase w) ord2 hrec v hv2
        refine ⟨w :: a1, a2, by rw [hord, List.cons_append], ?_⟩
        intro u hu hur
        by_cases huw : u = w
        · rw [huw]
          exact List.mem_cons_self w a1
        · exact List.mem_cons_of_mem w
            (hpred u hu ((List.mem_erase_of_ne huw).mpr hur))

theorem toposort_decomp {edges : List (Nat × Nat)} {n : Nat}
    {ord : List Nat} (h : toposort edges n = some ord)
    {v : Nat} (hv : v < n) :
    ∃ a1 a2, ord = a1 ++ v :: a2 ∧
      ∀ u : Nat, (u, v) ∈ edges → u < n → u ∈ a1 := by
  obtain ⟨a1, a2, hord, hpred⟩ :=
    toposortAux_decomp edges n (List.range n) ord h v (List.mem_range.mpr hv)
  exact ⟨a1, a2, hord, fun u hu hun => hpred u hu (List.mem_range.mpr hun)⟩

theorem toposort_nodup {edges : List (Nat × Nat)} {n : Nat}
    {ord : List Nat} (h : toposort edges n = some ord) : ord.Nodup :=
  (toposort_perm_range h).nodup_iff.mpr (List.nodup_range n)

theorem toposort_mem {edges : List (Nat × Nat)} {n : Nat}
    {ord : List Nat} (h : toposort edges n = some ord) {v : Nat} :
    v ∈ ord ↔ v < n := by
  rw [(toposort_perm_range h).mem_iff, List.mem_range]

end Dag

namespace Dag

theorem nodeLevels_spec {edges : List (Nat × Nat)} {n : Nat}
    {ord : List Nat} (h : toposort edges n = some ord)
    {v : Nat} (hv : v < n) :
    ∃ a1 a2, ord = a1 ++ v :: a2 ∧
      (∀ u : Nat, (u, v) ∈ edges → u < n → u ∈ a1) ∧
      nodeLevels edges ord v =
        some (lvlOf (assignLevels edges a1 (fun _ => none))
          (predsOf edges v)) ∧
      (∀ u ∈ a1, nodeLevels edges ord u =
        assignLevels edges a1 (fun _ => none) u) := by
  obtain ⟨a1, a2, hord, hpred⟩ := toposort_decomp h hv
  have hnd : (a1 ++ v :: a2).Nodup := hord ▸ toposort_nodup h
  obtain ⟨hnd1, hnd2, hdisj⟩ := List.nodup_append.mp hnd
  have hva2 : v ∉ a2 := (List.nodup_cons.mp hnd2).1
  refine ⟨a1, a2, hord, hpred, ?_, ?_⟩
  · rw [nodeLevels, hord, assignLevels_append, assignLevels,
      assignLevels_not_mem edges a2 _ v hva2]
    simp
  · intro u hu
    rw [nodeLevels, hord, assignLevels_append,
      assignLevels_not_mem edges (v :: a2) _ u
        (fun hmem => hdisj hu hmem)]

end Dag

namespace Dag

theorem mem_predsOf {edges : List (Nat × Nat)} {u v : Nat} :
    u ∈ predsOf edges v ↔ (u, v) ∈ edges := by
  rw [predsOf, List.mem_filterMap]
  constructor
  · rintro ⟨e, he, hf⟩
    split at hf
    · rename_i hbv
      obtain rfl := Option.some.inj hf
      subst hbv
      exact he
    · exact Option.noConfusion hf
  · intro he
    exact ⟨(u, v), he, by simp⟩

theorem level_lt {edges : List (Nat × Nat)} {n : Nat} {ord : List Nat}
    (h : toposort edges n = some ord)
    {u v : Nat} (he : (u, v) ∈ edges) (hu : u < n) (hv : v < n) :
    (nodeLevels edges ord u).getD 0 < (nodeLevels edges ord v).getD 0 := by
  obtain ⟨a1, a2, hord, hpred, hval, hstab⟩ := nodeLevels_spec h hv
  have hu1 : u ∈ a1 := hpred u he hu
  have hup : u ∈ predsOf edges v := mem_predsOf.mpr he
  rw [hval, hstab u hu1, Option.getD_some]
  cases hp : predsOf edges v with
  | nil =>
    rw [hp] at hup
    exact absurd hup (List.not_mem_nil u)
  | cons p ps =>
    rw [hp] at hup
    have hle : ((assignLevels edges a1 (fun _ => none)) u).getD 0 ≤
        (p :: ps).foldl
          (fun acc q =>
            max acc
              (((assignLevels edges a1 (fun _ => none)) q).getD 0)) 0 :=
      foldl_max_le
        (fun q => ((assignLevels edges a1 (fun _ => none)) q).getD 0)
        (p :: ps) 0 u hup
    show ((assignLevels edges a1 (fun _ => none)) u).getD 0 <
      1 + (p :: ps).foldl
        (fun acc q =>
          max acc (((assignLevels edges a1 (fun _ => none)) q).getD 0)) 0
    omega

theorem level_pred {edges : List (Nat × Nat)} {n : Nat} {ord : List Nat}
    (h : toposort edges n = some ord)
    (hrange : ∀ e ∈ edges, e.1 < n) {v : Nat} (hv : v < n) :
    (predsOf edges v = [] → nodeLevels edges ord v = some 0) ∧
    (predsOf edges v ≠ [] → ∃ p, p ∈ predsOf edges v ∧ p < n ∧
      (nodeLevels edges ord v).getD 0 =
        1 + (nodeLevels edges ord p).getD 0) := by
  obtain ⟨a1, a2, hord, hpred, hval, hstab⟩ := nodeLevels_spec h hv
  constructor
  · intro hnil
    rw [hval, hnil]
    rfl
  · intro hne
    cases hp : predsOf edges v with
    | nil => exact absurd hp hne
    | cons p ps =>
      obtain ⟨p0, hp0mem, hp0eq⟩ := foldl_max_attained
        (fun q => ((assignLevels edges a1 (fun _ => none)) q).getD 0)
        (p :: ps) (by simp)
      have hp0eq2 : (p :: ps).foldl
          (fun acc q =>
            max acc
              (((assignLevels edges a1 (fun _ => none)) q).getD 0)) 0 =
          ((assignLevels edges a1 (fun _ => none)) p0).getD 0 := hp0eq
      have hp0preds : p0 ∈ predsOf edges v := by
        rw [hp]
        exact hp0mem
      have he0 : (p0, v) ∈ edges := mem_predsOf.mp hp0preds
      have hp0n : p0 < n := hrange (p0, v) he0
      have hp0a1 : p0 ∈ a1 := hpred p0 he0 hp0n
      refine ⟨p0, hp0mem, hp0n, ?_⟩
      rw [hval, Option.getD_some, hstab p0 hp0a1, hp]
      show 1 + (p :: ps).foldl
          (fun acc q =>
            max acc
              (((assignLevels edges a1 (fun _ => none)) q).getD 0)) 0 =
        1 + ((assignLevels edges a1 (fun _ => none)) p0).getD 0
      rw [hp0eq2]

end Dag

namespace Dag

theorem levelSets_getElem {m : Nat → Option Nat} {ord : List Nat} {i : Nat}
    (hi : i ≤ ord.foldl (fun acc v => max acc ((m v).getD 0)) 0) :
    (levelSets m ord)[i]? =
      some (ord.filter (fun v => (m v).getD 0 = i)) := by
  show ((List.range
      (ord.foldl (fun acc v => max acc ((m v).getD 0)) 0 + 1)).map
      (fun k => ord.filter (fun v => (m v).getD 0 = k)))[i]? = _
  rw [List.getElem?_map, List.getElem?_range (Nat.lt_succ_of_le hi)]
  rfl

theorem levelSets_inv {m : Nat → Option Nat} {ord : List Nat} {i : Nat}
    {L : List Nat} (hL : (levelSets m ord)[i]? = some L) :
    L = ord.filter (fun v => (m v).getD 0 = i) := by
  have h1 : Option.map (fun k => ord.filter (fun v => (m v).getD 0 = k))
      ((List.range
        (ord.foldl (fun acc v => max acc ((m v).getD 0)) 0 + 1))[i]?) =
      some L := by
    rw [← List.getElem?_map]
    exact hL
  cases hr : (List.range
      (ord.foldl (fun acc v => max acc ((m v).getD 0)) 0 + 1))[i]? with
  | none =>
    rw [hr] at h1
    exact Option.noConfusion h1
  | some k =>
    rw [hr] at h1
    have hk : k = i := by
      obtain ⟨hlen, hget⟩ := List.getElem?_eq_some.mp hr
      rw [← hget, List.getElem_range]
    rw [hk] at h1
    exact (Option.some.inj h1).symm

theorem levelSets_mem {m : Nat → Option Nat} {ord : List Nat} {v : Nat}
    (hv : v ∈ ord) :
    ∃ L, (levelSets m ord)[(m v).getD 0]? = some L ∧ v ∈ L := by
  have hle : (m v).getD 0 ≤
      ord.foldl (fun acc w => max acc ((m w).getD 0)) 0 :=
    foldl_max_le (fun w => (m w).getD 0) ord 0 v hv
  refine ⟨_, levelSets_getElem hle, ?_⟩
  rw [List.mem_filter]
  exact ⟨hv, by simp⟩

end Dag

namespace Dag

theorem idToIndex_some {entries : List Wal.WALEntry} {d i : Nat}
    (h : idToIndex entries d = some i) :
    ∃ e, entries[i]? = some e ∧ e.id = d := by
  rw [idToIndex] at h
  cases hf : entries.enum.reverse.find? (fun p => p.2.id = d) with
  | none =>
    rw [hf] at h
    exact Option.noConfusion h
  | some pr =>
    obtain ⟨j, e⟩ := pr
    rw [hf, Option.map_some'] at h
    obtain rfl : (j, e).1 = i := Option.some.inj h
    have hmem : (j, e) ∈ entries.enum :=
      List.mem_reverse.mp (List.mem_of_find?_eq_some hf)
    have hget : entries[j]? = some e :=
      List.mk_mem_enum_iff_getElem?.mp hmem
    have hp := List.find?_some hf
    exact ⟨e, hget, of_decide_eq_true hp⟩

theorem idToIndex_of_nodup {entries : List Wal.WALEntry}
    (hids : (entries.map (fun e => e.id)).Nodup) {k : Nat}
    {e : Wal.WALEntry} (hk : entries[k]? = some e) :
    idToIndex entries e.id = some k := by
  rw [idToIndex]
  cases hf : entries.enum.reverse.find? (fun p => p.2.id = e.id) with
  | none =>
    have hmem : (k, e) ∈ entries.enum.reverse :=
      List.mem_reverse.mpr (List.mk_mem_enum_iff_getElem?.mpr hk)
    have hfalse := List.find?_eq_none.mp hf (k, e) hmem
    simp at hfalse
  | some pr =>
    obtain ⟨j, e2⟩ := pr
    have hmem : (j, e2) ∈ entries.enum :=
      List.mem_reverse.mp (List.mem_of_find?_eq_some hf)
    have hget : entries[j]? = some e2 :=
      List.mk_mem_enum_iff_getElem?.mp hmem
    have hp := List.find?_some hf
    have hid : e2.id = e.id := of_decide_eq_true hp
    have hmj : (entries.map (fun x => x.id))[j]? = some e.id := by
      rw [List.getElem?_map, hget, Option.map_some', hid]
    have hmk : (entries.map (fun x => x.id))[k]? = some e.id := by
      rw [List.getElem?_map, hk, Option.map_some']
    have hjlen : j < (entries.map (fun x => x.id)).length := by
      rw [List.length_map]
      exact (List.getElem?_eq_some.mp hget).1
    have hjk : j = k := List.getElem?_inj hjlen hids (by rw [hmj, hmk])
    rw [Option.map_some']
    exact congrArg some hjk

end Dag

namespace Dag

theorem depEdges_mem (entries : List Wal.WALEntry) (k : Nat) :
    ∀ (ds : List Nat) (es : List (Nat × Nat)),
      depEdges entries k ds = Except.ok es →
      ∀ pr ∈ es, pr.2 = k ∧ ∃ d ∈ ds, idToIndex entries d = some pr.1
  | [], es, h, pr, hpr => by
    rw [depEdges] at h
    obtain rfl := Except.ok.inj h
    exact absurd hpr (List.not_mem_nil pr)
  | d :: ds, es, h, pr, hpr => by
    rw [depEdges] at h
    cases hidx : idToIndex entries d with
    | none =>
      simp only [hidx] at h
      exact Except.noConfusion h
    | some di =>
      simp only [hidx] at h
      cases hrest : depEdges entries k ds with
      | error e =>
        simp only [hrest] at h
        exact Except.noConfusion h
      | ok rest =>
        simp only [hrest] at h
        obtain rfl := Except.ok.inj h
        rcases List.mem_cons.mp hpr with hm | hm
        · subst hm
          exact ⟨rfl, d, List.mem_cons_self d ds, hidx⟩
        · obtain ⟨h2, d2, hd2, hidx2⟩ :=
            depEdges_mem entries k ds rest hrest pr hm
          exact ⟨h2, d2, List.mem_cons_of_mem d hd2, hidx2⟩

theorem depEdges_complete (entries : List Wal.WALEntry) (k : Nat) :
    ∀ (ds : List Nat) (es : List (Nat × Nat)),
      depEdges entries k ds = Except.ok es →
      ∀ d ∈ ds, ∃ di, idToIndex entries d = some di ∧ (di, k) ∈ es
  | [], _, _, d, hd => absurd hd (List.not_mem_nil d)
  | d0 :: ds, es, h, d, hd => by
    rw [depEdges] at h
    cases hidx : idToIndex entries d0 with
    | none =>
      simp only [hidx] at h
      exact Except.noConfusion h
    | some di =>
      simp only [hidx] at h
      cases hrest : depEdges entries k ds with
      | error e =>
        simp only [hrest] at h
        exact Except.noConfusion h
      | ok rest =>
        simp only [hrest] at h
        obtain rfl := Except.ok.inj h
        rcases List.mem_cons.mp hd with hdd | hdd
        · subst hdd
          exact ⟨di, hidx, List.mem_cons_self _ _⟩
        · obtain ⟨di2, hidx2, hmem2⟩ :=
            depEdges_complete entries k ds rest hrest d hdd
          exact ⟨di2, hidx2, List.mem_cons_of_mem _ hmem2⟩

theorem buildEdgesAux_mem (entries : List Wal.WALEntry) :
    ∀ (l : List (Nat × Wal.WALEntry)) (es : List (Nat × Nat)),
      buildEdgesAux entries l = Except.ok es →
      ∀ pr ∈ es, ∃ p ∈ l, pr.2 = (idToIndex entries p.2.id).getD 0 ∧
        ∃ d ∈ p.2.depends_on, idToIndex entries d = some pr.1
  | [], es, h, pr, hpr => by
    rw [buildEdgesAux] at h
    obtain rfl := Except.ok.inj h
    exact absurd hpr (List.not_mem_nil pr)
  | p :: rest, es, h, pr, hpr => by
    rw [buildEdgesAux] at h
    cases hdep : depEdges entries ((idToIndex entries p.2.id).getD 0)
        p.2.depends_on with
    | error e =>
      simp only [hdep] at h
      exact Except.noConfusion h
    | ok es1 =>
      simp only [hdep] at h
      cases hrest : buildEdgesAux entries rest with
      | error e =>
        simp only [hrest] at h
        exact Except.noConfusion h
      | ok es2 =>
        simp only [hrest] at h
        obtain rfl := Except.ok.inj h
        rcases List.mem_append.mp hpr with hm | hm
        · obtain ⟨h2, d, hd, hidx⟩ := depEdges_mem entries _ _ es1 hdep pr hm
          exact ⟨p, List.mem_cons_self _ _, h2, d, hd, hidx⟩
        · obtain ⟨p2, hp2, hrest2⟩ :=
            buildEdgesAux_mem entries rest es2 hrest pr hm
          exact ⟨p2, List.mem_cons_of_mem _ hp2, hrest2⟩

theorem buildEdgesAux_complete (entries : List Wal.WALEntry) :
    ∀ (l : List (Nat × Wal.WALEntry)) (es : List (Nat × Nat)),
      buildEdgesAux entries l = Except.ok es →
      ∀ p ∈ l, ∀ d ∈ p.2.depends_on, ∃ di,
        idToIndex entries d = some di ∧
          (di, (idToIndex entries p.2.id).getD 0) ∈ es
  | [], _, _, p, hp, _, _ => absurd hp (List.not_mem_nil p)
  | p0 :: rest, es, h, p, hp, d, hd => by
    rw [buildEdgesAux] at h
    cases hdep : depEdges entries ((idToIndex entries p0.2.id).getD 0)
        p0.2.depends_on with
    | error e =>
      simp only [hdep] at h
      exact Except.noConfusion h
    | ok es1 =>
      simp only [hdep] at h
      cases hrest : buildEdgesAux entries rest with
      | error e =>
        simp only [hrest] at h
        exact Except.noConfusion h
      | ok es2 =>
        simp only [hrest] at h
        obtain rfl := Except.ok.inj h
        rcases List.mem_cons.mp hp with hpp | hpp
        · subst hpp
          obtain ⟨di, hidx, hmem⟩ :=
            depEdges_complete entries _ _ es1 hdep d hd
          exact ⟨di, hidx, List.mem_append_left _ hmem⟩
        · obtain ⟨di, hidx, hmem⟩ :=
            buildEdgesAux_complete entries rest es2 hrest p hpp d hd
          exact ⟨di, hidx, List.mem_append_right _ hmem⟩

end Dag

namespace Dag

theorem buildEdges_mem {entries : List Wal.WALEntry}
    {edges : List (Nat × Nat)} (h : buildEdges entries = Except.ok edges)
    (hids : (entries.map (fun e => e.id)).Nodup) :
    ∀ pr ∈ edges, pr.1 < entries.length ∧ pr.2 < entries.length ∧
      ∃ ev, entries[pr.2]? = some ev ∧
        ∃ d ∈ ev.depends_on, idToIndex entries d = some pr.1 := by
  intro pr hpr
  obtain ⟨p, hp, hsnd, d, hd, hidx⟩ :=
    buildEdgesAux_mem entries entries.enum edges h pr hpr
  obtain ⟨j, e⟩ := p
  have hget : entries[j]? = some e := List.mk_mem_enum_iff_getElem?.mp hp
  have hj : idToIndex entries e.id = some j := idToIndex_of_nodup hids hget
  have hsnd2 : pr.2 = j := by
    rw [hsnd]
    show (idToIndex entries (j, e).2.id).getD 0 = j
    rw [show (j, e).2.id = e.id from rfl, hj, Option.getD_some]
  obtain ⟨e1, hgete1, _⟩ := idToIndex_some hidx
  refine ⟨(List.getElem?_eq_some.mp hgete1).1, ?_, ?_⟩
  · rw [hsnd2]
    exact (List.getElem?_eq_some.mp hget).1
  · rw [hsnd2]
    exact ⟨e, hget, d, hd, hidx⟩

theorem buildEdges_complete {entries : List Wal.WALEntry}
    {edges : List (Nat × Nat)} (h : buildEdges entries = Except.ok edges)
    (hids : (entries.map (fun e => e.id)).Nodup) :
    ∀ (k : Nat) (e : Wal.WALEntry), entries[k]? = some e →
      ∀ d ∈ e.depends_on, ∃ di,
        idToIndex entries d = some di ∧ (di, k) ∈ edges := by
  intro k e hk d hd
  have hp : (k, e) ∈ entries.enum := List.mk_mem_enum_iff_getElem?.mpr hk
  obtain ⟨di, hidx, hmem⟩ :=
    buildEdgesAux_complete entries entries.enum edges h (k, e) hp d hd
  have hj : idToIndex entries e.id = some k := idToIndex_of_nodup hids hk
  refine ⟨di, hidx, ?_⟩
  have : (idToIndex entries (k, e).2.id).getD 0 = k := by
    rw [show (k, e).2.id = e.id from rfl, hj, Option.getD_some]
  rw [this] at hmem
  exact hmem

theorem from_entries_ok {entries : List Wal.WALEntry}
    {dag : ExecutionDAG} (h : from_entries entries = Except.ok dag) :
    ∃ edges ord, buildEdges entries = Except.ok edges ∧
      toposort edges entries.length = some ord ∧
      dag = ⟨entries, edges, levelSets (nodeLevels edges ord) ord⟩ := by
  rw [from_entries] at h
  by_cases hemp : entries.isEmpty = true
  · rw [if_pos hemp] at h
    exact Except.noConfusion h
  · rw [if_neg hemp] at h
    cases hbe : buildEdges entries with
    | error e =>
      simp only [hbe] at h
      exact Except.noConfusion h
    | ok edges =>
      simp only [hbe] at h
      cases hts : toposort edges entries.length with
      | none =>
        simp only [hts] at h
        exact Except.noConfusion h
      | some ord =>
        simp only [hts] at h
        exact ⟨edges, ord, rfl, hts, (Except.ok.inj h).symm⟩

end Dag

namespace Dag

/-- C7: for every `ExecutionDAG` successfully built by `from_entries`
from WAL entries with distinct ids, (1) every declared dependency of an
entry yields an edge into that entry's node and (2) every edge comes
from a declared dependency; (3) every node in level set `i` has all the
sources of its incoming edges in strictly lower level sets; (4) a node
in level set `i` has `i = 0` when it has no incoming edges, and
otherwise `i ≠ 0` with some predecessor in level set `i - 1` (so its
level is one more than the maximum dependency level); (5)
`topological_order` is a linear extension: the source entry of every
edge is listed strictly before the target entry. -/
theorem dag_levels_correct
    (entries : List Wal.WALEntry) (dag : ExecutionDAG)
    (hids : (entries.map (fun e => e.id)).Nodup)
    (hok : from_entries entries = Except.ok dag) :
    (∀ v ev, dag.entries[v]? = some ev → ∀ d ∈ ev.depends_on,
      ∃ u, idToIndex entries d = some u ∧ (u, v) ∈ dag.edges) ∧
    (∀ u v, (u, v) ∈ dag.edges → ∃ ev, dag.entries[v]? = some ev ∧
      ∃ d ∈ ev.depends_on, idToIndex entries d = some u) ∧
    (∀ i L, dag.levels[i]? = some L → ∀ v ∈ L, ∀ u, (u, v) ∈ dag.edges →
      ∃ (j : Nat) (L2 : List Nat), j < i ∧ dag.levels[j]? = some L2 ∧ u ∈ L2) ∧
    (∀ i L, dag.levels[i]? = some L → ∀ v ∈ L,
      (predsOf dag.edges v = [] → i = 0) ∧
      (predsOf dag.edges v ≠ [] → i ≠ 0 ∧
        ∃ (p : Nat) (L2 : List Nat), p ∈ predsOf dag.edges v ∧
          dag.levels[i - 1]? = some L2 ∧ p ∈ L2)) ∧
    (∀ u v, (u, v) ∈ dag.edges →
      ∃ eu ev t1 t2, dag.entries[u]? = some eu ∧
        dag.entries[v]? = some ev ∧
        topological_order dag = t1 ++ eu :: t2 ∧ ev ∈ t2) := by
  obtain ⟨edges, ord, hbe, hts, hdag⟩ := from_entries_ok hok
  have hE : dag.entries = entries := by rw [hdag]
  have hG : dag.edges = edges := by rw [hdag]
  have hL : dag.levels = levelSets (nodeLevels edges ord) ord := by
    rw [hdag]
  have hTO : topological_order dag =
      ord.filterMap (fun i => entries[i]?) := by
    rw [topological_order, hE, hG, hts]
  have hrange : ∀ e ∈ edges, e.1 < entries.length :=
    fun e he => (buildEdges_mem hbe hids e he).1
  simp only [hE, hG, hL, hTO]
  refine ⟨?_, ?_, ?_, ?_, ?_⟩
  · intro v ev hv d hd
    exact buildEdges_complete hbe hids v ev hv d hd
  · intro u v huv
    obtain ⟨_, _, ev, hgetv, d, hd, hidx⟩ :=
      buildEdges_mem hbe hids (u, v) huv
    exact ⟨ev, hgetv, d, hd, hidx⟩
  · intro i L hiL v hvL u huv
    obtain ⟨hu, hv, _⟩ := buildEdges_mem hbe hids (u, v) huv
    rw [levelSets_inv hiL, List.mem_filter] at hvL
    obtain ⟨hvord, hvdec⟩ := hvL
    have hvi : (nodeLevels edges ord v).getD 0 = i :=
      of_decide_eq_true hvdec
    have hlt := level_lt hts huv hu hv
    have huord : u ∈ ord := (toposort_mem hts).mpr hu
    obtain ⟨L2, hgL2, huL2⟩ := levelSets_mem (m := nodeLevels edges ord)
      huord
    exact ⟨(nodeLevels edges ord u).getD 0, L2, hvi ▸ hlt, hgL2, huL2⟩
  · intro i L hiL v hvL
    rw [levelSets_inv hiL, List.mem_filter] at hvL
    obtain ⟨hvord, hvdec⟩ := hvL
    have hvi : (nodeLevels edges ord v).getD 0 = i :=
      of_decide_eq_true hvdec
    have hv : v < entries.length := (toposort_mem hts).mp hvord
    obtain ⟨hnil, hcons⟩ := level_pred hts hrange hv
    constructor
    · intro hpnil
      rw [← hvi, hnil hpnil, Option.getD_some]
    · intro hpne
      obtain ⟨p, hpmem, hpn, heq⟩ := hcons hpne
      have hpord : p ∈ ord := (toposort_mem hts).mpr hpn
      obtain ⟨L2, hgL2, hpL2⟩ := levelSets_mem
        (m := nodeLevels edges ord) hpord
      have hip : (nodeLevels edges ord p).getD 0 = i - 1 := by omega
      rw [hip] at hgL2
      exact ⟨by omega, p, L2, hpmem, hgL2, hpL2⟩
  · intro u v huv
    obtain ⟨hu, hv, _⟩ := buildEdges_mem hbe hids (u, v) huv
    obtain ⟨a1, a2, hord, hpred⟩ := toposort_decomp hts hv
    have hu1 : u ∈ a1 := hpred u huv hu
    obtain ⟨l1, l2, ha1⟩ := List.append_of_mem hu1
    have hord2 : ord = l1 ++ u :: (l2 ++ v :: a2) := by
      rw [hord, ha1, List.append_assoc, List.cons_append]
    have hgu : entries[u]? = some entries[u] :=
      List.getElem?_eq_getElem hu
    have hgv : entries[v]? = some entries[v] :=
      List.getElem?_eq_getElem hv
    refine ⟨entries[u], entries[v],
      l1.filterMap (fun i => entries[i]?),
      (l2 ++ v :: a2).filterMap (fun i => entries[i]?),
      hgu, hgv, ?_, ?_⟩
    · rw [hord2, List.filterMap_append]
      congr 1
      rw [List.filterMap_cons, hgu]
    · exact List.mem_filterMap.mpr
        ⟨v, List.mem_append_right _ (List.mem_cons_self v a2), hgv⟩

end Dag

namespace Dag

/-- Concrete entry list for exercising `from_entries`: a three-entry
dependency chain (ids 1, 2, 3; entry 2 depends on 1, entry 3 on 2). -/
def exDagEntries : List Wal.WALEntry :=
  [Executor.entOk, Executor.entBad, Executor.entAfter]

/-- The DAG `from_entries` builds from `exDagEntries`: edges `0 → 1 → 2`
and one singleton level per node. -/
def exDag : ExecutionDAG :=
  ⟨exDagEntries, [(0, 1), (1, 2)], [[0], [1], [2]]⟩

/-- Witness instantiating `dag_levels_correct` on the concrete chain
DAG. -/
theorem dag_levels_correct_witness :
    ((exDagEntries.map (fun e => e.id)).Nodup ∧
      from_entries exDagEntries = Except.ok exDag) ∧
    ((∀ v ev, exDag.entries[v]? = some ev → ∀ d ∈ ev.depends_on,
      ∃ u, idToIndex exDagEntries d = some u ∧ (u, v) ∈ exDag.edges) ∧
    (∀ u v, (u, v) ∈ exDag.edges → ∃ ev, exDag.entries[v]? = some ev ∧
      ∃ d ∈ ev.depends_on, idToIndex exDagEntries d = some u) ∧
    (∀ i L, exDag.levels[i]? = some L → ∀ v ∈ L, ∀ u,
      (u, v) ∈ exDag.edges →
      ∃ (j : Nat) (L2 : List Nat), j < i ∧ exDag.levels[j]? = some L2 ∧
        u ∈ L2) ∧
    (∀ i L, exDag.levels[i]? = some L → ∀ v ∈ L,
      (predsOf exDag.edges v = [] → i = 0) ∧
      (predsOf exDag.edges v ≠ [] → i ≠ 0 ∧
        ∃ (p : Nat) (L2 : List Nat), p ∈ predsOf exDag.edges v ∧
          exDag.levels[i - 1]? = some L2 ∧ p ∈ L2)) ∧
    (∀ u v, (u, v) ∈ exDag.edges →
      ∃ eu ev t1 t2, exDag.entries[u]? = some eu ∧
        exDag.entries[v]? = some ev ∧
        topological_order exDag = t1 ++ eu :: t2 ∧ ev ∈ t2)) :=
  ⟨⟨by decide, by rfl⟩,
    dag_levels_correct exDagEntries exDag (by decide) (by rfl)⟩

end Dag
